import Mathlib

/-!
Verification development for `misc/tools/bake-vf.py`, the tool that bakes the
final Inter variable fonts: it renames the font family, scrubs "Display" from
style names, and synthesizes a STAT table description.

Strings are modelled as `List Char` (Python `str` compares and slices by code
point, which `List Char` mirrors).  The font's name table is a list of
records keyed by (nameID, platformID, encodingID, languageID), as exposed by
the name-table accessors the script uses: `getName` returns the first record
matching a key, `setName` overwrites the first matching record or appends.
Fallible steps (Python exceptions) are modelled with `Except Err`:
`Err.notFound` stands for the `ValueError("family/style name not found")`
raised by the lookup helpers, and `Err.attrError` for the `AttributeError`
raised when `font_is_italic` calls `.toUnicode()` on the `None` returned for
a missing (2, 3, 1, 0x409) record.
-/

abbrev Str := List Char

/-- Python `\s` / `str.strip` whitespace class (ASCII part, which is all the
tool ever feeds it). -/
def isSpace (c : Char) : Bool :=
  c == ' ' || c == '\t' || c == '\n' || c == '\r' || c == '\x0b' || c == '\x0c'

/-- `startsWith pat s`: `pat` is a prefix of `s`. -/
def startsWith : Str → Str → Bool
  | [], _ => true
  | _ :: _, [] => false
  | a :: ps, b :: ss => a == b && startsWith ps ss

/-- `s.find(pat)` from Python: index of the first occurrence of `pat` in `s`,
`none` for Python's `-1`. -/
def findSub : Str → Str → Option Nat
  | [], pat => if startsWith pat [] then some 0 else none
  | c :: cs, pat =>
      if startsWith pat (c :: cs) then some 0 else (findSub cs pat).map (· + 1)

/-- Python `pat in s`. -/
def containsSub (s pat : Str) : Bool := (findSub s pat).isSome

/-- Fuelled worker for `listReplace`; the fuel only bounds the recursion
depth and `listReplace` always supplies enough of it (every step consumes at
least one character). -/
def listReplaceGo (pat repl : Str) : Nat → Str → Str
  | _, [] => []
  | 0, s => s
  | fuel + 1, c :: cs =>
      if pat ≠ [] ∧ startsWith pat (c :: cs) = true then
        repl ++ listReplaceGo pat repl fuel ((c :: cs).drop pat.length)
      else
        c :: listReplaceGo pat repl fuel cs

/-- Python `s.replace(pat, repl)`: replace all non-overlapping occurrences,
left to right.  (The tool only ever calls it with a non-empty `pat`.) -/
def listReplace (s pat repl : Str) : Str := listReplaceGo pat repl s.length s

/-- Drop leading whitespace (front half of Python `str.strip`). -/
def dropLeading (p : Char → Bool) (s : Str) : Str := s.dropWhile p

/-- Drop trailing characters satisfying `p` (back half of Python `str.strip`). -/
def dropTrailing (p : Char → Bool) : Str → Str
  | [] => []
  | c :: cs =>
      let r := dropTrailing p cs
      if r = [] ∧ p c = true then [] else c :: r

/-- Python `s.strip()`. -/
def stripStr (s : Str) : Str := dropTrailing isSpace (s.dropWhile isSpace)

/-- `remove_whitespace` from the source: `WHITESPACE_RE.sub('', s)`, i.e.
delete every whitespace character. -/
def remove_whitespace (s : Str) : Str := s.filter (fun c => !(isSpace c))

/-- `normalize_whitespace` from the source: `WHITESPACE_RE.sub(' ', s)`, i.e.
collapse every maximal whitespace run into a single space. -/
def normalize_whitespace : Str → Str
  | [] => []
  | [c] => if isSpace c then [' '] else [c]
  | c :: d :: rest =>
      if isSpace c ∧ isSpace d then normalize_whitespace (d :: rest)
      else (if isSpace c then ' ' else c) :: normalize_whitespace (d :: rest)

/-- `remove_substring` from the source:
`normalize_whitespace(s.strip().replace(substr, '')).strip()`. -/
def remove_substring (s substr : Str) : Str :=
  stripStr (normalize_whitespace (listReplace (stripStr s) substr []))

/-- Python string comparison (code-point lexicographic), as used by
`list.sort()` in `getFamilyNames`. -/
def lexLt : Str → Str → Bool
  | [], [] => false
  | [], _ :: _ => true
  | _ :: _, [] => false
  | a :: as_, b :: bs => if a < b then true else if b < a then false else lexLt as_ bs

def insertSorted (x : Str) : List Str → List Str
  | [] => [x]
  | y :: ys => if lexLt x y then x :: y :: ys else y :: insertSorted x ys

/-- `list.sort()` (ascending lexicographic). -/
def sortStrs (l : List Str) : List Str := l.foldr insertSorted []

/-- Insertion-ordered deduplication, as performed by the `dict` in
`getFamilyNames` (Python dicts keep first-insertion order). -/
def dedupKeep (seen : List Str) : List Str → List Str
  | [] => []
  | x :: xs => if x ∈ seen then dedupKeep seen xs else x :: dedupKeep (x :: seen) xs

def dedupStrs (l : List Str) : List Str := dedupKeep [] l

/-- `s.rfind(c)`: index of the last occurrence of the character `c`. -/
def rfindChar : Str → Char → Option Nat
  | [], _ => none
  | a :: as_, c =>
      match rfindChar as_ c with
      | some i => some (i + 1)
      | none => if a = c then some 0 else none

/-- The `s[:p] + '-' + s[p+1:]` variant built in `setFamilyName`, with `p`
the index of the last space. -/
def hyphenLast (s : Str) : Str :=
  match rfindChar s ' ' with
  | some p => s.take p ++ ['-'] ++ s.drop (p + 1)
  | none => s

def interStr : Str := "Inter".toList
def interVariableStr : Str := "Inter Variable".toList
def interVariableNoSpaceStr : Str := "InterVariable".toList
def interHyphenVariableStr : Str := "Inter-Variable".toList
def displayStr : Str := "Display".toList
def regularStr : Str := "Regular".toList
def italicStr : Str := "Italic".toList
def variableStr : Str := "Variable".toList

/-- Error kinds the script can raise before saving: `notFound` models the
`ValueError("family name not found")` / `ValueError("style name not found")`
raised by `getFamilyName(s)` / `getStyleName`; `attrError` models the
`AttributeError` raised by `font_is_italic` when
`getName(2, 3, 1, 0x409)` returns `None` and `.toUnicode()` is called on it. -/
inductive Err where
  | notFound
  | attrError
deriving DecidableEq

/-- Key of a name record: (nameID, platformID, encodingID, languageID). -/
structure NameKey where
  nameID : Nat
  platformID : Nat
  encID : Nat
  langID : Nat
deriving DecidableEq

structure NameRecord where
  key : NameKey
  string : Str
deriving DecidableEq

/-- The font's name table, the only state the renaming engine touches. -/
structure Font where
  names : List NameRecord
deriving DecidableEq

/-- `nameTable.getName(...)`: first record matching the key, if any. -/
def lookupRec : List NameRecord → NameKey → Option Str
  | [], _ => none
  | r :: rs, k => if r.key = k then some r.string else lookupRec rs k

def getName (f : Font) (k : NameKey) : Option Str := lookupRec f.names k

/-- `nameTable.setName(...)`: overwrite the first record with this key, or
append a fresh record. -/
def setNameRecs : List NameRecord → Str → NameKey → List NameRecord
  | [], s, k => [⟨k, s⟩]
  | r :: rs, s, k => if r.key = k then ⟨k, s⟩ :: rs else r :: setNameRecs rs s k

def setName (f : Font) (s : Str) (k : NameKey) : Font := ⟨setNameRecs f.names s k⟩

def WIN_ENG : Nat × Nat × Nat := (3, 1, 0x409)
def MAC_ROMAN : Nat × Nat × Nat := (1, 0, 0)

def FAMILY_RELATED_IDS : List Nat := [1, 3, 4, 6, 16, 21, 25]

/-- The four (platform, nameID) slots scanned by `getFamilyName(s)`:
Windows-English then Mac-Roman, preferred family (16) then legacy family (1). -/
def famSlots : List NameKey :=
  [⟨16, 3, 1, 0x409⟩, ⟨1, 3, 1, 0x409⟩, ⟨16, 1, 0, 0⟩, ⟨1, 1, 0, 0⟩]

/-- The four slots scanned by `getStyleName`: Windows-English then Mac-Roman,
typographic subfamily (17) then subfamily (2). -/
def styleSlots : List NameKey :=
  [⟨17, 3, 1, 0x409⟩, ⟨2, 3, 1, 0x409⟩, ⟨17, 1, 0, 0⟩, ⟨2, 1, 0, 0⟩]

def winSubKey : NameKey := ⟨2, 3, 1, 0x409⟩
def macID25Key : NameKey := ⟨25, 1, 0, 0⟩
def winID25Key : NameKey := ⟨25, 3, 1, 0x409⟩
def winFullKey : NameKey := ⟨4, 3, 1, 0x409⟩
def macFullKey : NameKey := ⟨4, 1, 0, 0⟩
def winPsKey : NameKey := ⟨6, 3, 1, 0x409⟩
def macPsKey : NameKey := ⟨6, 1, 0, 0⟩

/-- Strings found in the given slots, in slot order. -/
def collectSlots (f : Font) (ks : List NameKey) : List Str :=
  ks.filterMap (fun k => getName f k)

/-- `getFamilyName`: first family string in slot order, else the
"family name not found" error. -/
def getFamilyName (f : Font) : Except Err Str :=
  match collectSlots f famSlots with
  | [] => .error .notFound
  | s :: _ => .ok s

/-- `getFamilyNames`: all distinct family strings from the four slots, kept in
insertion order by a dict, then `sort()`ed (lexicographically ascending) and
`reverse()`d. -/
def getFamilyNames (f : Font) : Except Err (List Str) :=
  let names := dedupStrs (collectSlots f famSlots)
  if names = [] then .error .notFound else .ok ((sortStrs names).reverse)

/-- `getStyleName`: first style string in slot order, else the
"style name not found" error. -/
def getStyleName (f : Font) : Except Err Str :=
  match collectSlots f styleSlots with
  | [] => .error .notFound
  | s :: _ => .ok s

/-- `font_is_italic`: reads the (2, 3, 1, 0x409) record only; a missing
record is an `AttributeError` (`None.toUnicode()`), not the documented
`ValueError`. -/
def font_is_italic (f : Font) : Except Err Bool :=
  match getName f winSubKey with
  | some s => .ok (containsSub s italicStr)
  | none => .error .attrError

/-- Core of `renameRecord`: try the candidate previous-family strings in list
order; on the first candidate that occurs in `s`, splice `next` over that
first occurrence and stop.  No candidate matching leaves `s` unchanged. -/
def renameString : List Str → Str → Str → Str
  | [], _, s => s
  | c :: rest, next, s =>
      match findSub s c with
      | some i => s.take i ++ next ++ s.drop (i + c.length)
      | none => renameString rest next s

/-- Replace the first occurrence of `pat` in `s` by `next` (no occurrence:
`s` unchanged).  Spec-side description of what one `renameRecord` call does
with a single candidate. -/
def replaceFirstSub (s pat next : Str) : Str :=
  match findSub s pat with
  | some i => s.take i ++ next ++ s.drop (i + pat.length)
  | none => s

/-- One record of the `setFamilyName` rewrite loop: family-related records
are renamed (PostScript candidates/form for nameID 6; the nameID 3 unique-ID
heuristic prefers a PostScript-style candidate that occurs in the record;
everything else uses the human candidates/form); other records are left
untouched. -/
def renameRec (prevs psPrevs : List Str) (next psNext : Str) (r : NameRecord) :
    NameRecord :=
  if r.key.nameID ∈ FAMILY_RELATED_IDS then
    if r.key.nameID = 6 then ⟨r.key, renameString psPrevs psNext r.string⟩
    else if r.key.nameID = 3 then
      match psPrevs.find? (fun p => containsSub r.string p) with
      | some p => ⟨r.key, renameString [p] psNext r.string⟩
      | none => ⟨r.key, renameString prevs next r.string⟩
    else ⟨r.key, renameString prevs next r.string⟩
  else r

/-- PostScript-safe variants of one previous family candidate, as built in
`setFamilyName`: strip; a space-free candidate is kept as is, otherwise both
the all-spaces-removed and the last-space-to-hyphen variants are added. -/
def psVariantOne (s : Str) : List Str :=
  let t := stripStr s
  if containsSub t [' '] then [listReplace t [' '] [], hyphenLast t] else [t]

def psVariantsOf (l : List Str) : List Str := (l.map psVariantOne).flatten

/-- The `found_VAR_PS_NAME_PREFIX` flag: some record with nameID 25 exists
(on any platform). -/
def hasID25 (f : Font) : Bool := f.names.any (fun r => r.key.nameID == 25)

/-- `setFamilyName`: look up the previous family candidates (error if none),
rename every family-related record in place, then — when no nameID 25 record
existed and the new family name contains "Variable" — synthesize the
variations PostScript name prefix (whitespace-stripped new name, plus
"Italic" for an italic font) for Mac-Roman and Windows-English. -/
def setFamilyName (f : Font) (next : Str) : Except Err Font :=
  match getFamilyNames f with
  | .error e => .error e
  | .ok prevs =>
      let psPrevs := psVariantsOf prevs
      let psNext := listReplace next [' '] []
      let renamed : List NameRecord := f.names.map (renameRec prevs psPrevs next psNext)
      if hasID25 f = false ∧ containsSub next variableStr = true then
        match font_is_italic ⟨renamed⟩ with
        | .error e => .error e
        | .ok ital =>
            let pfx := remove_whitespace next ++ (if ital then italicStr else [])
            .ok (setName (setName ⟨renamed⟩ pfx macID25Key) pfx winID25Key)
      else .ok ⟨renamed⟩

/-- `set_full_name`: write the full name (nameID 4) and PostScript name
(nameID 6) for Mac-Roman and Windows-English. -/
def set_full_name (f : Font) (fullName fullNamePs : Str) : Font :=
  setName (setName (setName (setName f fullName macFullKey) fullName winFullKey)
    fullNamePs macPsKey) fullNamePs winPsKey

/-- `setStyleName`: recompute full/PostScript names from the (stripped)
family name — eliding a "Regular" style — and overwrite every
subfamily/typographic-subfamily record with the new style string. -/
def setStyleName (f : Font) (newStyleName : Str) : Except Err Font :=
  match getFamilyName f with
  | .error e => .error e
  | .ok fam =>
      let newFullName :=
        if newStyleName = regularStr then stripStr fam
        else stripStr fam ++ [' '] ++ newStyleName
      let f1 := set_full_name f newFullName (remove_whitespace newFullName)
      .ok ⟨f1.names.map (fun r =>
        if r.key.nameID = 2 ∨ r.key.nameID = 17 then ⟨r.key, newStyleName⟩ else r)⟩

/-- An axis-value description as handed to fontTools' `buildStatTable`:
either a single `value` or a `nominalValue`/`rangeMinValue`/`rangeMaxValue`
triple, with a display name, flags (0x2 = elidable) and an optional linked
value. -/
structure AxisValue where
  value : Option Int
  nominalValue : Option Int
  rangeMinValue : Option Int
  rangeMaxValue : Option Int
  name : Str
  flags : Nat
  linkedValue : Option Int
deriving DecidableEq

structure StatAxis where
  name : Str
  tag : Str
  ordering : Nat
  values : List AxisValue
deriving DecidableEq

/-- Format of the binary axis-value record an `AxisValue` description turns
into, following the format selection of fontTools' `buildStatTable` (the
external builder the script calls) and the OpenType STAT specification the
source cites: a single value with a linked value is a format 3 record, a
single value alone is format 1, and a nominal/min/max range is format 2. -/
def recordFormat (v : AxisValue) : Nat :=
  match v.value with
  | some _ => match v.linkedValue with | some _ => 3 | none => 1
  | none => 2

def rangeAV (nom mn mx : Int) (nm : Str) : AxisValue :=
  ⟨none, some nom, some mn, some mx, nm, 0, none⟩

/-- `stat_axes_format_2` from the source, transcribed dict for dict. -/
def stat_axes_format_2 (is_italic : Bool) : List StatAxis :=
  [ ⟨"Optical Size".toList, "opsz".toList, 0,
      [ rangeAV 14 14 21 "14pt".toList,
        rangeAV 28 21 28 "28pt".toList ] ⟩,
    ⟨"Weight".toList, "wght".toList, 1,
      [ rangeAV 100 100 150 "Thin".toList,
        rangeAV 200 150 250 "ExtraLight".toList,
        rangeAV 300 250 350 "Light".toList,
        ⟨none, some 400, some 350, some 450, "Regular".toList, 0x2, some 660⟩,
        rangeAV 500 450 540 "Medium".toList,
        rangeAV 580 540 620 "SemiBold".toList,
        rangeAV 660 620 720 "Bold".toList,
        rangeAV 780 720 840 "ExtraBold".toList,
        rangeAV 900 840 900 "Black".toList ] ⟩,
    ⟨"Italic".toList, "ital".toList, 2,
      [ if is_italic then ⟨some 1, none, none, none, "Italic".toList, 0, none⟩
        else ⟨some 0, none, none, none, "Roman".toList, 0x2, some 1⟩ ] ⟩ ]

/-- `gen_stat`: build the version 1.1 STAT description from the italic flag
(which itself reads the Windows subfamily record). -/
def gen_stat (f : Font) : Except Err (List StatAxis) :=
  match font_is_italic f with
  | .error e => .error e
  | .ok b => .ok (stat_axes_format_2 b)

/-- `main` after argument parsing: rename family (default "Inter Variable"),
clean and rewrite the style name (scrub "Display", defaulting to "Regular"
when empty), build the STAT description.  Any error aborts the pipeline. -/
def runPipeline (f : Font) (family : Str) : Except Err (Font × List StatAxis) :=
  match setFamilyName f family with
  | .error e => .error e
  | .ok f1 =>
      match getStyleName f1 with
      | .error e => .error e
      | .ok s0 =>
          let s1 := remove_substring s0 displayStr
          let s2 := if s1 = [] then regularStr else s1
          match setStyleName f1 s2 with
          | .error e => .error e
          | .ok f2 =>
              match gen_stat f2 with
              | .error e => .error e
              | .ok stat => .ok (f2, stat)

/-- Content of the output path after an invocation with the output path
defaulting to the input path: `font.save` runs only after every stage
succeeded, so on any error the file keeps its previous content. -/
def bake (f : Font) (family : Str) : Font :=
  match runPipeline f family with
  | .ok (g, _) => g
  | .error _ => f

/-- All binary record formats produced for a STAT description, axis by axis. -/
def statFormats (axes : List StatAxis) : List Nat :=
  (axes.map (fun a => a.values.map recordFormat)).flatten

/-- What one pass of the family rename (previous family "Inter", new family
"Inter Variable") does to a single record's string: the first occurrence of
"Inter" is spliced over with the new family name — "InterVariable" for the
PostScript-bearing fields (nameID 6, and nameID 3 via the unique-ID
heuristic), "Inter Variable" otherwise; records without an occurrence and
records outside the family-related set keep their string. -/
def bakedFamilyString (r : NameRecord) : Str :=
  if r.key.nameID ∈ FAMILY_RELATED_IDS then
    if r.key.nameID = 6 ∨ r.key.nameID = 3 then
      replaceFirstSub r.string interStr interVariableNoSpaceStr
    else
      replaceFirstSub r.string interStr interVariableStr
  else r.string

/-- Family slots of a font renamed from "Inter": every preferred/legacy
family record on Windows-English/Mac-Roman is either absent or holds exactly
"Inter", and at least one is present. -/
def famSlotsInter (f : Font) : Prop :=
  (∀ k ∈ famSlots, getName f k = none ∨ getName f k = some interStr) ∧
  (∃ k ∈ famSlots, getName f k = some interStr)

/-- Concrete font for the C1 counterexample: legacy family "Inter", a
unique-ID record containing "Inter" twice, a Regular subfamily. -/
def fontC1 : Font :=
  ⟨[⟨⟨1, 3, 1, 0x409⟩, "Inter".toList⟩,
    ⟨⟨3, 3, 1, 0x409⟩, "Inter Inter".toList⟩,
    ⟨⟨2, 3, 1, 0x409⟩, "Regular".toList⟩]⟩

/-- Concrete font for the C3 evaluation: family names "Aaaa" and "B". -/
def fontC3 : Font :=
  ⟨[⟨⟨16, 3, 1, 0x409⟩, "Aaaa".toList⟩, ⟨⟨1, 3, 1, 0x409⟩, "B".toList⟩]⟩

/-- Concrete font for the C4 counterexample: a style name with surrounding
whitespace and no "Display" in it. -/
def fontC4 : Font :=
  ⟨[⟨⟨1, 3, 1, 0x409⟩, "Inter".toList⟩,
    ⟨⟨2, 3, 1, 0x409⟩, " Bold ".toList⟩]⟩

/-- Concrete font for the C6 counterexample, first failure mode: family
present, no style records, no nameID 25 record. -/
def fontC6a : Font := ⟨[⟨⟨1, 3, 1, 0x409⟩, "Inter".toList⟩]⟩

/-- Concrete font for the C6 counterexample, second failure mode: family and
nameID 25 present, no style records. -/
def fontC6b : Font :=
  ⟨[⟨⟨1, 3, 1, 0x409⟩, "Inter".toList⟩, ⟨⟨25, 3, 1, 0x409⟩, "Inter".toList⟩]⟩

/-- Name table of `fontC6b` after `setFamilyName` (both records renamed),
exhibiting the in-memory mutation that precedes the style-name failure. -/
def fontC6bRenamed : Font :=
  ⟨[⟨⟨1, 3, 1, 0x409⟩, "Inter Variable".toList⟩,
    ⟨⟨25, 3, 1, 0x409⟩, "Inter Variable".toList⟩]⟩

/-- Concrete witness font: preferred family "Inter", Windows subfamily
"Bold Italic" (italic, no nameID 25 record). -/
def fontW7 : Font :=
  ⟨[⟨⟨16, 3, 1, 0x409⟩, "Inter".toList⟩,
    ⟨⟨2, 3, 1, 0x409⟩, "Bold Italic".toList⟩]⟩

/-- Concrete witness font for the style-cleanup claims: Windows subfamily
"Display" (cleans to the empty string). -/
def fontW8 : Font :=
  ⟨[⟨⟨16, 3, 1, 0x409⟩, "Inter".toList⟩,
    ⟨⟨2, 3, 1, 0x409⟩, "Display".toList⟩]⟩

/-- Concrete witness font for the italic-detection claims: no Windows
subfamily record, Mac-Roman subfamily "Bold". -/
def fontW10 : Font :=
  ⟨[⟨⟨16, 3, 1, 0x409⟩, "Inter".toList⟩, ⟨⟨2, 1, 0, 0⟩, "Bold".toList⟩]⟩

/-- Concrete witness font with an untouched style name: Windows subfamily
"Bold". -/
def fontW4 : Font :=
  ⟨[⟨⟨16, 3, 1, 0x409⟩, "Inter".toList⟩,
    ⟨⟨2, 3, 1, 0x409⟩, "Bold".toList⟩]⟩

/-- `pat` occurs in `s` at index `i`. -/
def occAt (s pat : Str) (i : Nat) : Prop := startsWith pat (s.drop i) = true

/-! ### Occurrence theory for `startsWith` / `findSub` -/

lemma startsWith_iff_take (pat s : Str) :
    startsWith pat s = true ↔ s.take pat.length = pat := by
  induction pat generalizing s with
  | nil => simp [startsWith]
  | cons a ps ih =>
      cases s with
      | nil => simp [startsWith]
      | cons b ss =>
          simp only [startsWith, List.length_cons, List.take_succ_cons,
            Bool.and_eq_true, beq_iff_eq, List.cons.injEq, ih]
          constructor
          · rintro ⟨h1, h2⟩; exact ⟨h1.symm, h2⟩
          · rintro ⟨h1, h2⟩; exact ⟨h1.symm, h2⟩

lemma startsWith_trans {p q t : Str} (hpq : startsWith p q = true)
    (hqt : startsWith q t = true) : startsWith p t = true := by
  rw [startsWith_iff_take] at hpq hqt ⊢
  have hlen : p.length ≤ q.length := by
    conv_lhs => rw [← hpq]
    simp
  calc t.take p.length = (t.take q.length).take p.length := by
        rw [List.take_take, Nat.min_eq_left hlen]
    _ = q.take p.length := by rw [hqt]
    _ = p := hpq

lemma startsWith_length_le {p s : Str} (h : startsWith p s = true) :
    p.length ≤ s.length := by
  rw [startsWith_iff_take] at h
  conv_lhs => rw [← h]
  simp

lemma startsWith_append_self (p x : Str) : startsWith p (p ++ x) = true := by
  rw [startsWith_iff_take, List.take_append_of_le_length le_rfl, List.take_length]

lemma startsWith_decomp {p s : Str} (h : startsWith p s = true) :
    s = p ++ s.drop p.length := by
  rw [startsWith_iff_take] at h
  conv_lhs => rw [← List.take_append_drop p.length s, h]

lemma occAt_cons_succ (c : Char) (cs pat : Str) (i : Nat) :
    occAt (c :: cs) pat (i + 1) ↔ occAt cs pat i := by
  simp [occAt]

lemma occAt_zero (s pat : Str) : occAt s pat 0 ↔ startsWith pat s = true := by
  simp [occAt]

lemma findSub_nil (pat : Str) :
    findSub [] pat = if startsWith pat [] then some 0 else none := rfl

lemma findSub_cons (c : Char) (cs pat : Str) :
    findSub (c :: cs) pat =
      if startsWith pat (c :: cs) then some 0 else (findSub cs pat).map (· + 1) := rfl

lemma findSub_eq_some_iff (s pat : Str) (i : Nat) :
    findSub s pat = some i ↔ (occAt s pat i ∧ ∀ j < i, ¬ occAt s pat j) := by
  induction s generalizing i with
  | nil =>
      rw [findSub_nil]
      by_cases h : startsWith pat [] = true
      · rw [if_pos h]
        constructor
        · intro heq
          have hi : i = 0 := by simpa using heq.symm
          subst hi
          exact ⟨(occAt_zero [] pat).mpr h, by omega⟩
        · rintro ⟨_, hmin⟩
          have hi : i = 0 := by
            by_contra hne
            exact hmin 0 (Nat.pos_of_ne_zero hne) ((occAt_zero [] pat).mpr h)
          rw [hi]
      · rw [if_neg h]
        constructor
        · intro heq; exact absurd heq (by simp)
        · rintro ⟨hocc, _⟩
          have : startsWith pat [] = true := by
            have := hocc
            simpa [occAt] using this
          exact absurd this h
  | cons c cs ih =>
      rw [findSub_cons]
      by_cases h : startsWith pat (c :: cs) = true
      · rw [if_pos h]
        constructor
        · intro heq
          have hi : i = 0 := by simpa using heq.symm
          subst hi
          exact ⟨(occAt_zero _ pat).mpr h, by omega⟩
        · rintro ⟨_, hmin⟩
          have hi : i = 0 := by
            by_contra hne
            exact hmin 0 (Nat.pos_of_ne_zero hne) ((occAt_zero _ pat).mpr h)
          rw [hi]
      · rw [if_neg h, Option.map_eq_some']
        constructor
        · rintro ⟨i', hi', rfl⟩
          obtain ⟨hocc, hmin⟩ := (ih i').mp hi'
          refine ⟨(occAt_cons_succ c cs pat i').mpr hocc, ?_⟩
          intro j hj
          cases j with
          | zero =>
              rw [occAt_zero]
              simpa using h
          | succ j' =>
              rw [occAt_cons_succ]
              exact hmin j' (by omega)
        · rintro ⟨hocc, hmin⟩
          cases i with
          | zero =>
              exact absurd ((occAt_zero _ pat).mp hocc) h
          | succ i' =>
              refine ⟨i', (ih i').mpr ⟨(occAt_cons_succ c cs pat i').mp hocc, ?_⟩, rfl⟩
              intro j hj hjocc
              exact hmin (j + 1) (by omega) ((occAt_cons_succ c cs pat j).mpr hjocc)

lemma not_occAt_of_findSub_none {s pat : Str} (hfs : findSub s pat = none) :
    ∀ i, ¬ occAt s pat i := by
  induction s with
  | nil =>
      intro i hocc
      rw [findSub_nil] at hfs
      have hsw : ¬ startsWith pat [] = true := by
        intro hc; simp [hc] at hfs
      exact hsw (by simpa [occAt] using hocc)
  | cons c cs ihs =>
      intro i hocc
      rw [findSub_cons] at hfs
      by_cases hsw : startsWith pat (c :: cs) = true
      · simp [hsw] at hfs
      · rw [if_neg hsw, Option.map_eq_none'] at hfs
        cases i with
        | zero => exact hsw ((occAt_zero _ pat).mp hocc)
        | succ i' => exact ihs hfs i' ((occAt_cons_succ c cs pat i').mp hocc)

lemma findSub_eq_none_iff (s pat : Str) :
    findSub s pat = none ↔ ∀ i, ¬ occAt s pat i := by
  constructor
  · exact fun h => not_occAt_of_findSub_none h
  · intro h
    cases hfs : findSub s pat with
    | none => rfl
    | some j =>
        obtain ⟨hocc, _⟩ := (findSub_eq_some_iff s pat j).mp hfs
        exact absurd hocc (h j)

lemma containsSub_eq_false_iff (s pat : Str) :
    containsSub s pat = false ↔ ∀ i, ¬ occAt s pat i := by
  rw [← findSub_eq_none_iff]
  unfold containsSub
  cases findSub s pat <;> simp

lemma containsSub_of_occAt {s pat : Str} {i : Nat} (h : occAt s pat i) :
    containsSub s pat = true := by
  by_contra hc
  simp only [Bool.not_eq_true] at hc
  exact (containsSub_eq_false_iff s pat).mp hc i h

/-- If `p` is a prefix of `q` and `p` does not occur in `s`, `q` cannot occur
in `s` either: any occurrence of `q` starts with one of `p`. -/
lemma containsSub_eq_false_mono {s p q : Str} (hpq : startsWith p q = true)
    (h : containsSub s p = false) : containsSub s q = false := by
  rw [containsSub_eq_false_iff] at h ⊢
  intro i hocc
  exact h i (startsWith_trans hpq hocc)

lemma occAt_lt_length {s pat : Str} {i : Nat} (hp : pat ≠ []) (h : occAt s pat i) :
    i < s.length := by
  by_contra hle
  push_neg at hle
  rw [occAt, List.drop_eq_nil_of_le hle] at h
  cases pat with
  | nil => exact hp rfl
  | cons a ps => simp [startsWith] at h

lemma occAt_decomp {s pat : Str} {i : Nat} (h : occAt s pat i) :
    s = s.take i ++ pat ++ s.drop (i + pat.length) := by
  have h2 : s.drop i = pat ++ (s.drop i).drop pat.length := startsWith_decomp h
  calc s = s.take i ++ s.drop i := (List.take_append_drop i s).symm
    _ = s.take i ++ (pat ++ (s.drop i).drop pat.length) := by rw [← h2]
    _ = s.take i ++ pat ++ s.drop (i + pat.length) := by
        rw [List.drop_drop, List.append_assoc]

lemma occAt_agree {s t pat : Str} {j m : Nat} (hagree : s.take m = t.take m)
    (hjm : j + pat.length ≤ m) : occAt s pat j ↔ occAt t pat j := by
  rw [occAt, occAt, startsWith_iff_take, startsWith_iff_take]
  have h1 : (s.drop j).take pat.length = (s.take (j + pat.length)).drop j := by
    rw [List.drop_take]
    congr 1
    omega
  have h2 : (t.drop j).take pat.length = (t.take (j + pat.length)).drop j := by
    rw [List.drop_take]
    congr 1
    omega
  have h3 : s.take (j + pat.length) = t.take (j + pat.length) := by
    calc s.take (j + pat.length) = (s.take m).take (j + pat.length) := by
          rw [List.take_take, Nat.min_eq_left hjm]
      _ = (t.take m).take (j + pat.length) := by rw [hagree]
      _ = t.take (j + pat.length) := by rw [List.take_take, Nat.min_eq_left hjm]
  rw [h1, h2, h3]

/-- Replacing the first occurrence of `p` (at index `i`) by an extension `q`
of `p` leaves `q`'s first occurrence at the same index `i`, and splicing `p`
back over it restores the original string.  This is the engine behind the
rename round-trip: "Inter" is a prefix of "Inter Variable", "InterVariable"
and "Inter-Variable". -/
lemma replace_roundtrip (p q s : Str) (i : Nat)
    (hpq : startsWith p q = true) (hp : p ≠ [])
    (hfind : findSub s p = some i) :
    findSub (s.take i ++ q ++ s.drop (i + p.length)) q = some i ∧
    (s.take i ++ q ++ s.drop (i + p.length)).take i ++ p ++
      (s.take i ++ q ++ s.drop (i + p.length)).drop (i + q.length) = s := by
  obtain ⟨hocc, hmin⟩ := (findSub_eq_some_iff s p i).mp hfind
  have hi : i < s.length := occAt_lt_length hp hocc
  have hlen_take : (s.take i).length = i := List.length_take_of_le hi.le
  have hassoc : s.take i ++ q ++ s.drop (i + p.length) =
      s.take i ++ (q ++ s.drop (i + p.length)) := List.append_assoc _ _ _
  have hplen : p.length ≤ q.length := startsWith_length_le hpq
  have htq : q.take p.length = p := (startsWith_iff_take p q).mp hpq
  have hts : (s.drop i).take p.length = p := (startsWith_iff_take p _).mp hocc
  have hdrop : (s.take i ++ q ++ s.drop (i + p.length)).drop i =
      q ++ s.drop (i + p.length) := by
    rw [hassoc, List.drop_left' hlen_take]
  have htake_s : s.take (i + p.length) = s.take i ++ p := by
    rw [List.take_add, hts]
  have hre : i + p.length = (s.take i).length + p.length := by rw [hlen_take]
  have htake_s' : (s.take i ++ q ++ s.drop (i + p.length)).take (i + p.length) =
      s.take i ++ p := by
    rw [hassoc, hre, List.take_append, List.take_append_of_le_length hplen, htq]
  have hagree : (s.take i ++ q ++ s.drop (i + p.length)).take (i + p.length) =
      s.take (i + p.length) := by rw [htake_s', htake_s]
  have hocc' : occAt (s.take i ++ q ++ s.drop (i + p.length)) q i := by
    rw [occAt, hdrop]
    exact startsWith_append_self q _
  have hmin' : ∀ j < i, ¬ occAt (s.take i ++ q ++ s.drop (i + p.length)) q j := by
    intro j hj hqj
    have hpj : occAt (s.take i ++ q ++ s.drop (i + p.length)) p j :=
      startsWith_trans hpq hqj
    have hpj' : occAt s p j :=
      (occAt_agree hagree (by omega)).mp hpj
    exact hmin j hj hpj'
  refine ⟨(findSub_eq_some_iff _ q i).mpr ⟨hocc', hmin'⟩, ?_⟩
  have htakei : (s.take i ++ q ++ s.drop (i + p.length)).take i = s.take i := by
    rw [hassoc, List.take_left' hlen_take]
  have hdropq : (s.take i ++ q ++ s.drop (i + p.length)).drop (i + q.length) =
      s.drop (i + p.length) := by
    refine List.drop_left' ?_
    rw [List.length_append, hlen_take]
  rw [htakei, hdropq]
  exact (occAt_decomp hocc).symm

/-! ### Behaviour of the candidate-list rename -/

lemma renameString_cons_some {c s : Str} {i : Nat} (h : findSub s c = some i)
    (rest : List Str) (next : Str) :
    renameString (c :: rest) next s = s.take i ++ next ++ s.drop (i + c.length) := by
  simp [renameString, h]

lemma renameString_cons_none {c s : Str} (h : findSub s c = none)
    (rest : List Str) (next : Str) :
    renameString (c :: rest) next s = renameString rest next s := by
  simp [renameString, h]

lemma findSub_eq_none_of_not_contains {s c : Str} (h : containsSub s c = false) :
    findSub s c = none := by
  unfold containsSub at h
  cases hfs : findSub s c with
  | none => rfl
  | some j => rw [hfs] at h; simp at h

lemma renameString_no_match {cands : List Str} {s : Str} (next : Str)
    (h : ∀ c ∈ cands, containsSub s c = false) : renameString cands next s = s := by
  induction cands with
  | nil => rfl
  | cons c rest ih =>
      rw [renameString_cons_none
        (findSub_eq_none_of_not_contains (h c (by simp))) rest next]
      exact ih (fun c' hc' => h c' (by simp [hc']))

lemma renameString_singleton (c next s : Str) :
    renameString [c] next s = replaceFirstSub s c next := by
  cases hfind : findSub s c <;> simp [renameString, replaceFirstSub, hfind]

lemma interStr_ne_nil : interStr ≠ [] := by decide

lemma startsWith_inter_iv : startsWith interStr interVariableStr = true := by decide

lemma startsWith_inter_ivns : startsWith interStr interVariableNoSpaceStr = true := by
  decide

lemma startsWith_inter_ihv : startsWith interStr interHyphenVariableStr = true := by
  decide

lemma mem_family_ids_6 : (6 : Nat) ∈ FAMILY_RELATED_IDS := by decide

lemma mem_family_ids_3 : (3 : Nat) ∈ FAMILY_RELATED_IDS := by decide

lemma renameRec_eq_of_not_fam {r : NameRecord}
    (hfam : r.key.nameID ∉ FAMILY_RELATED_IDS)
    (prevs psPrevs : List Str) (next psNext : Str) :
    renameRec prevs psPrevs next psNext r = r := by
  simp [renameRec, hfam]

lemma renameRec_eq_of_id6 {r : NameRecord} (h6 : r.key.nameID = 6)
    (prevs psPrevs : List Str) (next psNext : Str) :
    renameRec prevs psPrevs next psNext r =
      ⟨r.key, renameString psPrevs psNext r.string⟩ := by
  simp [renameRec, h6, mem_family_ids_6]

lemma renameRec_eq_of_id3_some {r : NameRecord} (h3 : r.key.nameID = 3)
    {psPrevs : List Str} {p : Str}
    (hfind : psPrevs.find? (fun c => containsSub r.string c) = some p)
    (prevs : List Str) (next psNext : Str) :
    renameRec prevs psPrevs next psNext r =
      ⟨r.key, renameString [p] psNext r.string⟩ := by
  simp [renameRec, h3, mem_family_ids_3, hfind]

lemma renameRec_eq_of_id3_none {r : NameRecord} (h3 : r.key.nameID = 3)
    {psPrevs : List Str}
    (hfind : psPrevs.find? (fun c => containsSub r.string c) = none)
    (prevs : List Str) (next psNext : Str) :
    renameRec prevs psPrevs next psNext r =
      ⟨r.key, renameString prevs next r.string⟩ := by
  simp [renameRec, h3, mem_family_ids_3, hfind]

lemma renameRec_eq_of_fam_other {r : NameRecord}
    (hfam : r.key.nameID ∈ FAMILY_RELATED_IDS)
    (h6 : ¬ r.key.nameID = 6) (h3 : ¬ r.key.nameID = 3)
    (prevs psPrevs : List Str) (next psNext : Str) :
    renameRec prevs psPrevs next psNext r =
      ⟨r.key, renameString prevs next r.string⟩ := by
  simp [renameRec, hfam, h6, h3]

lemma forall_mem_singleton_contains {s c : Str} (h : containsSub s c = false) :
    ∀ x ∈ [c], containsSub s x = false := by
  intro x hx
  simp only [List.mem_singleton] at hx
  rw [hx]
  exact h

lemma forall_mem_pair_contains {s c d : Str} (hc : containsSub s c = false)
    (hd : containsSub s d = false) : ∀ x ∈ [c, d], containsSub s x = false := by
  intro x hx
  simp only [List.mem_cons, List.not_mem_nil, or_false] at hx
  rcases hx with hx | hx
  · rw [hx]; exact hc
  · rw [hx]; exact hd

/-- The human-form rename round-trips on any string. -/
lemma rename_rt_human (s : Str) :
    renameString [interVariableStr] interStr
      (renameString [interStr] interVariableStr s) = s := by
  cases hfind : findSub s interStr with
  | some i =>
      obtain ⟨h1, h2⟩ :=
        replace_roundtrip interStr interVariableStr s i
          startsWith_inter_iv interStr_ne_nil hfind
      rw [renameString_cons_some hfind [] interVariableStr,
        renameString_cons_some h1 [] interStr, h2]
  | none =>
      have hc : containsSub s interStr = false := by simp [containsSub, hfind]
      have hc3 : containsSub s interVariableStr = false :=
        containsSub_eq_false_mono startsWith_inter_iv hc
      have e1 : renameString [interStr] interVariableStr s = s :=
        renameString_no_match _ (forall_mem_singleton_contains hc)
      rw [e1]
      exact renameString_no_match _ (forall_mem_singleton_contains hc3)

/-- The PostScript-form rename round-trips on any string. -/
lemma rename_rt_ps (s : Str) :
    renameString [interVariableNoSpaceStr, interHyphenVariableStr] interStr
      (renameString [interStr] interVariableNoSpaceStr s) = s := by
  cases hfind : findSub s interStr with
  | some i =>
      obtain ⟨h1, h2⟩ :=
        replace_roundtrip interStr interVariableNoSpaceStr s i
          startsWith_inter_ivns interStr_ne_nil hfind
      rw [renameString_cons_some hfind [] interVariableNoSpaceStr,
        renameString_cons_some h1 [interHyphenVariableStr] interStr, h2]
  | none =>
      have hc : containsSub s interStr = false := by simp [containsSub, hfind]
      have hc1 : containsSub s interVariableNoSpaceStr = false :=
        containsSub_eq_false_mono startsWith_inter_ivns hc
      have hc2 : containsSub s interHyphenVariableStr = false :=
        containsSub_eq_false_mono startsWith_inter_ihv hc
      have e1 : renameString [interStr] interVariableNoSpaceStr s = s :=
        renameString_no_match _ (forall_mem_singleton_contains hc)
      rw [e1]
      exact renameString_no_match _ (forall_mem_pair_contains hc1 hc2)

/-- Pass 1 of the Inter rename, record by record: exactly a first-occurrence
replacement of "Inter" by the new family name, in PostScript form on the
PostScript-bearing fields (nameID 6 directly, nameID 3 through the unique-ID
heuristic, whose candidate "Inter" coincides with the human candidate). -/
lemma renameRec_pass1_eq (r : NameRecord) :
    renameRec [interStr] [interStr] interVariableStr interVariableNoSpaceStr r =
      ⟨r.key, bakedFamilyString r⟩ := by
  by_cases h6 : r.key.nameID = 6
  · rw [renameRec_eq_of_id6 h6 [interStr] [interStr] interVariableStr
      interVariableNoSpaceStr, renameString_singleton]
    unfold bakedFamilyString
    rw [if_pos (h6 ▸ mem_family_ids_6), if_pos (Or.inl h6)]
  · by_cases h3 : r.key.nameID = 3
    · cases hc : containsSub r.string interStr with
      | true =>
          have hfq : [interStr].find? (fun c => containsSub r.string c) =
              some interStr := List.find?_cons_of_pos [] hc
          rw [renameRec_eq_of_id3_some h3 hfq [interStr] interVariableStr
            interVariableNoSpaceStr, renameString_singleton]
          unfold bakedFamilyString
          rw [if_pos (h3 ▸ mem_family_ids_3), if_pos (Or.inr h3)]
      | false =>
          have hfq : [interStr].find? (fun c => containsSub r.string c) = none := by
            rw [List.find?_cons_of_neg [] (by simp [hc]), List.find?_nil]
          have hnone : findSub r.string interStr = none :=
            findSub_eq_none_of_not_contains hc
          rw [renameRec_eq_of_id3_none h3 hfq [interStr] interVariableStr
            interVariableNoSpaceStr, renameString_singleton]
          unfold bakedFamilyString replaceFirstSub
          rw [if_pos (h3 ▸ mem_family_ids_3), if_pos (Or.inr h3), hnone]
    · by_cases hfam : r.key.nameID ∈ FAMILY_RELATED_IDS
      · rw [renameRec_eq_of_fam_other hfam h6 h3 [interStr] [interStr]
          interVariableStr interVariableNoSpaceStr, renameString_singleton]
        unfold bakedFamilyString
        rw [if_pos hfam, if_neg (by tauto)]
      · rw [renameRec_eq_of_not_fam hfam [interStr] [interStr] interVariableStr
          interVariableNoSpaceStr]
        unfold bakedFamilyString
        rw [if_neg hfam]

lemma renameRecMk_id6 (k : NameKey) (s : Str) (h6 : k.nameID = 6)
    (prevs psPrevs : List Str) (next psNext : Str) :
    renameRec prevs psPrevs next psNext ⟨k, s⟩ =
      ⟨k, renameString psPrevs psNext s⟩ := by
  simp [renameRec, h6, mem_family_ids_6]

lemma renameRecMk_id3_some (k : NameKey) (s : Str) (h3 : k.nameID = 3)
    {psPrevs : List Str} {p : Str}
    (hfind : psPrevs.find? (fun c => containsSub s c) = some p)
    (prevs : List Str) (next psNext : Str) :
    renameRec prevs psPrevs next psNext ⟨k, s⟩ =
      ⟨k, renameString [p] psNext s⟩ := by
  simp [renameRec, h3, mem_family_ids_3, hfind]

lemma renameRecMk_id3_none (k : NameKey) (s : Str) (h3 : k.nameID = 3)
    {psPrevs : List Str}
    (hfind : psPrevs.find? (fun c => containsSub s c) = none)
    (prevs : List Str) (next psNext : Str) :
    renameRec prevs psPrevs next psNext ⟨k, s⟩ =
      ⟨k, renameString prevs next s⟩ := by
  simp [renameRec, h3, mem_family_ids_3, hfind]

lemma renameRecMk_fam_other (k : NameKey) (s : Str)
    (hfam : k.nameID ∈ FAMILY_RELATED_IDS)
    (h6 : ¬ k.nameID = 6) (h3 : ¬ k.nameID = 3)
    (prevs psPrevs : List Str) (next psNext : Str) :
    renameRec prevs psPrevs next psNext ⟨k, s⟩ =
      ⟨k, renameString prevs next s⟩ := by
  simp [renameRec, hfam, h6, h3]

lemma renameRecMk_not_fam (k : NameKey) (s : Str)
    (hfam : k.nameID ∉ FAMILY_RELATED_IDS)
    (prevs psPrevs : List Str) (next psNext : Str) :
    renameRec prevs psPrevs next psNext ⟨k, s⟩ = ⟨k, s⟩ := by
  simp [renameRec, hfam]

/-- Renaming "Inter" to "Inter Variable" and then "Inter Variable" back to
"Inter" is the identity on every single name record. -/
lemma renameRec_roundtrip (r : NameRecord) :
    renameRec [interVariableStr] [interVariableNoSpaceStr, interHyphenVariableStr]
      interStr interStr
      (renameRec [interStr] [interStr] interVariableStr interVariableNoSpaceStr r) =
      r := by
  by_cases h6 : r.key.nameID = 6
  · have e1 : renameRec [interStr] [interStr] interVariableStr
        interVariableNoSpaceStr r =
        ⟨r.key, renameString [interStr] interVariableNoSpaceStr r.string⟩ :=
      renameRec_eq_of_id6 h6 [interStr] [interStr] interVariableStr
        interVariableNoSpaceStr
    have e2 : renameRec [interVariableStr]
        [interVariableNoSpaceStr, interHyphenVariableStr] interStr interStr
        (⟨r.key, renameString [interStr] interVariableNoSpaceStr r.string⟩ :
          NameRecord) =
        ⟨r.key, renameString [interVariableNoSpaceStr, interHyphenVariableStr]
          interStr (renameString [interStr] interVariableNoSpaceStr r.string)⟩ :=
      renameRecMk_id6 r.key _ h6 [interVariableStr]
        [interVariableNoSpaceStr, interHyphenVariableStr] interStr interStr
    rw [e1, e2, rename_rt_ps]
  · by_cases h3 : r.key.nameID = 3
    · cases hfind : findSub r.string interStr with
      | some i =>
          have hc : containsSub r.string interStr = true := by
            simp [containsSub, hfind]
          have hfq : [interStr].find? (fun c => containsSub r.string c) =
              some interStr := List.find?_cons_of_pos [] hc
          obtain ⟨h1, h2⟩ :=
            replace_roundtrip interStr interVariableNoSpaceStr r.string i
              startsWith_inter_ivns interStr_ne_nil hfind
          have hc' : containsSub
              (r.string.take i ++ interVariableNoSpaceStr ++
                r.string.drop (i + interStr.length)) interVariableNoSpaceStr =
              true := by
            unfold containsSub
            rw [h1]
            rfl
          have hfq2 : [interVariableNoSpaceStr, interHyphenVariableStr].find?
              (fun c => containsSub
                (r.string.take i ++ interVariableNoSpaceStr ++
                  r.string.drop (i + interStr.length)) c) =
              some interVariableNoSpaceStr :=
            List.find?_cons_of_pos [interHyphenVariableStr] hc'
          have e1 : renameRec [interStr] [interStr] interVariableStr
              interVariableNoSpaceStr r =
              ⟨r.key, r.string.take i ++ interVariableNoSpaceStr ++
                r.string.drop (i + interStr.length)⟩ := by
            rw [renameRec_eq_of_id3_some h3 hfq [interStr] interVariableStr
              interVariableNoSpaceStr,
              renameString_cons_some hfind [] interVariableNoSpaceStr]
          have e2 : renameRec [interVariableStr]
              [interVariableNoSpaceStr, interHyphenVariableStr] interStr interStr
              (⟨r.key, r.string.take i ++ interVariableNoSpaceStr ++
                r.string.drop (i + interStr.length)⟩ : NameRecord) =
              ⟨r.key, renameString [interVariableNoSpaceStr] interStr
                (r.string.take i ++ interVariableNoSpaceStr ++
                  r.string.drop (i + interStr.length))⟩ :=
            renameRecMk_id3_some r.key _ h3 hfq2 [interVariableStr] interStr
              interStr
          rw [e1, e2, renameString_cons_some h1 [] interStr, h2]
      | none =>
          have hc : containsSub r.string interStr = false := by
            simp [containsSub, hfind]
          have hc1 : containsSub r.string interVariableNoSpaceStr = false :=
            containsSub_eq_false_mono startsWith_inter_ivns hc
          have hc2 : containsSub r.string interHyphenVariableStr = false :=
            containsSub_eq_false_mono startsWith_inter_ihv hc
          have hc3 : containsSub r.string interVariableStr = false :=
            containsSub_eq_false_mono startsWith_inter_iv hc
          have hfq : [interStr].find? (fun c => containsSub r.string c) = none := by
            rw [List.find?_cons_of_neg [] (by simp [hc]), List.find?_nil]
          have hfq2 : [interVariableNoSpaceStr, interHyphenVariableStr].find?
              (fun c => containsSub r.string c) = none := by
            rw [List.find?_cons_of_neg [interHyphenVariableStr] (by simp [hc1]),
              List.find?_cons_of_neg [] (by simp [hc2]), List.find?_nil]
          have e1 : renameRec [interStr] [interStr] interVariableStr
              interVariableNoSpaceStr r = ⟨r.key, r.string⟩ := by
            rw [renameRec_eq_of_id3_none h3 hfq [interStr] interVariableStr
              interVariableNoSpaceStr,
              renameString_no_match _ (forall_mem_singleton_contains hc)]
          have e2 : renameRec [interVariableStr]
              [interVariableNoSpaceStr, interHyphenVariableStr] interStr interStr
              (⟨r.key, r.string⟩ : NameRecord) =
              ⟨r.key, renameString [interVariableStr] interStr r.string⟩ :=
            renameRecMk_id3_none r.key _ h3 hfq2 [interVariableStr] interStr
              interStr
          rw [e1, e2,
            renameString_no_match _ (forall_mem_singleton_contains hc3)]
    · by_cases hfam : r.key.nameID ∈ FAMILY_RELATED_IDS
      · have e1 : renameRec [interStr] [interStr] interVariableStr
            interVariableNoSpaceStr r =
            ⟨r.key, renameString [interStr] interVariableStr r.string⟩ :=
          renameRec_eq_of_fam_other hfam h6 h3 [interStr] [interStr]
            interVariableStr interVariableNoSpaceStr
        have e2 : renameRec [interVariableStr]
            [interVariableNoSpaceStr, interHyphenVariableStr] interStr interStr
            (⟨r.key, renameString [interStr] interVariableStr r.string⟩ :
              NameRecord) =
            ⟨r.key, renameString [interVariableStr] interStr
              (renameString [interStr] interVariableStr r.string)⟩ :=
          renameRecMk_fam_other r.key _ hfam h6 h3 [interVariableStr]
            [interVariableNoSpaceStr, interHyphenVariableStr] interStr interStr
        rw [e1, e2, rename_rt_human]
      · rw [renameRec_eq_of_not_fam hfam [interStr] [interStr] interVariableStr
          interVariableNoSpaceStr,
          renameRec_eq_of_not_fam hfam [interVariableStr]
            [interVariableNoSpaceStr, interHyphenVariableStr] interStr interStr]

/-! ### Name-table plumbing -/

lemma renameRec_key (prevs psPrevs : List Str) (next psNext : Str)
    (r : NameRecord) :
    (renameRec prevs psPrevs next psNext r).key = r.key := by
  by_cases h6 : r.key.nameID = 6
  · rw [renameRec_eq_of_id6 h6 prevs psPrevs next psNext]
  · by_cases h3 : r.key.nameID = 3
    · cases hfq : psPrevs.find? (fun c => containsSub r.string c) with
      | some p => rw [renameRec_eq_of_id3_some h3 hfq prevs next psNext]
      | none => rw [renameRec_eq_of_id3_none h3 hfq prevs next psNext]
    · by_cases hfam : r.key.nameID ∈ FAMILY_RELATED_IDS
      · rw [renameRec_eq_of_fam_other hfam h6 h3 prevs psPrevs next psNext]
      · rw [renameRec_eq_of_not_fam hfam prevs psPrevs next psNext]

/-- Records outside the family-related set are untouched by the rename. -/
lemma renameRec_not_fam_string {r : NameRecord}
    (h : r.key.nameID ∉ FAMILY_RELATED_IDS)
    (prevs psPrevs : List Str) (next psNext : Str) :
    renameRec prevs psPrevs next psNext r = r :=
  renameRec_eq_of_not_fam h prevs psPrevs next psNext

lemma lookupRec_map_rename (l : List NameRecord) (k : NameKey)
    (prevs psPrevs : List Str) (next psNext : Str) :
    lookupRec (l.map (renameRec prevs psPrevs next psNext)) k =
      (lookupRec l k).map
        (fun s => (renameRec prevs psPrevs next psNext ⟨k, s⟩).string) := by
  induction l with
  | nil => rfl
  | cons r rs ih =>
      obtain ⟨rk, rstr⟩ := r
      by_cases hk : rk = k
      · subst hk
        have hkey : (renameRec prevs psPrevs next psNext ⟨rk, rstr⟩).key = rk :=
          renameRec_key prevs psPrevs next psNext ⟨rk, rstr⟩
        simp [lookupRec, hkey]
      · have hkey : (renameRec prevs psPrevs next psNext ⟨rk, rstr⟩).key = rk :=
          renameRec_key prevs psPrevs next psNext ⟨rk, rstr⟩
        simp only [List.map_cons, lookupRec, hkey, if_neg hk]
        exact ih

lemma lookupRec_append (l1 l2 : List NameRecord) (k : NameKey) :
    lookupRec (l1 ++ l2) k =
      match lookupRec l1 k with
      | some s => some s
      | none => lookupRec l2 k := by
  induction l1 with
  | nil => rfl
  | cons r rs ih =>
      by_cases hk : r.key = k
      · simp [lookupRec, hk]
      · simp only [List.cons_append, lookupRec, if_neg hk]
        exact ih

lemma lookupRec_setNameRecs_self (l : List NameRecord) (s : Str) (k : NameKey) :
    lookupRec (setNameRecs l s k) k = some s := by
  induction l with
  | nil => simp [setNameRecs, lookupRec]
  | cons r rs ih =>
      by_cases hk : r.key = k
      · simp [setNameRecs, hk, lookupRec]
      · simp only [setNameRecs, if_neg hk, lookupRec, if_neg hk]
        exact ih

lemma lookupRec_setNameRecs_other (l : List NameRecord) (s : Str)
    {k k' : NameKey} (h : ¬ k' = k) :
    lookupRec (setNameRecs l s k) k' = lookupRec l k' := by
  induction l with
  | nil =>
      have hne : ¬ (⟨k, s⟩ : NameRecord).key = k' := fun hc => h hc.symm
      simp [setNameRecs, lookupRec, hne]
  | cons r rs ih =>
      by_cases hk : r.key = k
      · subst hk
        have hne : ¬ (⟨r.key, s⟩ : NameRecord).key = k' := fun hc => h hc.symm
        have hne2 : ¬ r.key = k' := fun hc => h hc.symm
        simp [setNameRecs, lookupRec, hne, hne2]

      · simp only [setNameRecs, if_neg hk, lookupRec]
        by_cases hk' : r.key = k'
        · rw [if_pos hk', if_pos hk']
        · rw [if_neg hk', if_neg hk']
          exact ih

lemma setNameRecs_of_absent {l : List NameRecord} {k : NameKey}
    (h : ∀ r ∈ l, ¬ r.key = k) (s : Str) :
    setNameRecs l s k = l ++ [⟨k, s⟩] := by
  induction l with
  | nil => rfl
  | cons r rs ih =>
      rw [setNameRecs, if_neg (h r (by simp)), List.cons_append]
      rw [ih (fun r' hr' => h r' (by simp [hr']))]

lemma mem_setNameRecs {l : List NameRecord} {k : NameKey} {s : Str}
    {r' : NameRecord} (h : r' ∈ setNameRecs l s k) :
    r' = ⟨k, s⟩ ∨ r' ∈ l := by
  induction l with
  | nil =>
      simp [setNameRecs] at h
      exact Or.inl h
  | cons r rs ih =>
      by_cases hk : r.key = k
      · rw [setNameRecs, if_pos hk] at h
        rcases List.mem_cons.mp h with h | h
        · exact Or.inl h
        · exact Or.inr (List.mem_cons_of_mem _ h)
      · rw [setNameRecs, if_neg hk] at h
        rcases List.mem_cons.mp h with h | h
        · exact Or.inr (h ▸ List.mem_cons_self r rs)
        · rcases ih h with h' | h'
          · exact Or.inl h'
          · exact Or.inr (List.mem_cons_of_mem _ h')

lemma lookupRec_map_keyed (fn : NameRecord → NameRecord)
    (hkey : ∀ r, (fn r).key = r.key) (l : List NameRecord) (k : NameKey) :
    lookupRec (l.map fn) k = (lookupRec l k).map (fun s => (fn ⟨k, s⟩).string) := by
  induction l with
  | nil => rfl
  | cons r rs ih =>
      obtain ⟨rk, rstr⟩ := r
      by_cases hk : rk = k
      · subst hk
        simp [lookupRec, hkey ⟨rk, rstr⟩]
      · simp only [List.map_cons, lookupRec, hkey ⟨rk, rstr⟩, if_neg hk]
        exact ih

lemma getName_map_rename_not_fam {f : Font} {k : NameKey}
    (hk : k.nameID ∉ FAMILY_RELATED_IDS)
    (prevs psPrevs : List Str) (next psNext : Str) :
    getName ⟨f.names.map (renameRec prevs psPrevs next psNext)⟩ k =
      getName f k := by
  show lookupRec (f.names.map (renameRec prevs psPrevs next psNext)) k =
    lookupRec f.names k
  rw [lookupRec_map_rename]
  cases hl : lookupRec f.names k with
  | none => rfl
  | some s =>
      rw [Option.map_some']
      rw [renameRec_not_fam_string hk prevs psPrevs next psNext]

lemma font_is_italic_map_rename (f : Font)
    (prevs psPrevs : List Str) (next psNext : Str) :
    font_is_italic ⟨f.names.map (renameRec prevs psPrevs next psNext)⟩ =
      font_is_italic f := by
  unfold font_is_italic
  rw [getName_map_rename_not_fam (by decide) prevs psPrevs next psNext]

lemma getFamilyNames_error_setFamilyName {f : Font} {e : Err}
    (h : getFamilyNames f = .error e) (next : Str) :
    setFamilyName f next = .error e := by
  unfold setFamilyName
  rw [h]

/-- `setFamilyName` after a successful candidate lookup, when the synthesis
branch is not taken: just the in-place rename of every record. -/
lemma setFamilyName_eq_no_synth {f : Font} {prevs : List Str}
    (hprev : getFamilyNames f = .ok prevs) (next : Str)
    (hcond : ¬ (hasID25 f = false ∧ containsSub next variableStr = true)) :
    setFamilyName f next =
      .ok ⟨f.names.map (renameRec prevs (psVariantsOf prevs) next
        (listReplace next [' '] []))⟩ := by
  unfold setFamilyName
  rw [hprev]
  simp only [if_neg hcond]

/-- `setFamilyName` when the synthesis branch is taken and the italic check
succeeds: rename plus two appended nameID 25 records. -/
lemma setFamilyName_eq_synth {f : Font} {prevs : List Str} {w : Str}
    (hprev : getFamilyNames f = .ok prevs) (next : Str)
    (h25 : hasID25 f = false) (hvar : containsSub next variableStr = true)
    (hw : getName f winSubKey = some w) :
    setFamilyName f next =
      .ok (setName (setName
        ⟨f.names.map (renameRec prevs (psVariantsOf prevs) next
          (listReplace next [' '] []))⟩
        (remove_whitespace next ++
          (if containsSub w italicStr then italicStr else [])) macID25Key)
        (remove_whitespace next ++
          (if containsSub w italicStr then italicStr else [])) winID25Key) := by
  unfold setFamilyName
  rw [hprev]
  simp only [if_pos (And.intro h25 hvar)]
  have hit : font_is_italic
      ⟨f.names.map (renameRec prevs (psVariantsOf prevs) next
        (listReplace next [' '] []))⟩ = .ok (containsSub w italicStr) := by
    rw [font_is_italic_map_rename]
    unfold font_is_italic
    rw [hw]
  rw [hit]

/-- `setFamilyName` when the synthesis branch is taken but the Windows
subfamily record is missing: the italic check raises, and the error is the
`AttributeError`, not the documented `NotFound`. -/
lemma setFamilyName_eq_attr {f : Font} {prevs : List Str}
    (hprev : getFamilyNames f = .ok prevs) (next : Str)
    (h25 : hasID25 f = false) (hvar : containsSub next variableStr = true)
    (hw : getName f winSubKey = none) :
    setFamilyName f next = .error .attrError := by
  unfold setFamilyName
  rw [hprev]
  simp only [if_pos (And.intro h25 hvar)]
  have hit : font_is_italic
      ⟨f.names.map (renameRec prevs (psVariantsOf prevs) next
        (listReplace next [' '] []))⟩ = .error .attrError := by
    rw [font_is_italic_map_rename]
    unfold font_is_italic
    rw [hw]
  rw [hit]

/-- Lookup of any non-nameID-25 key through a successful `setFamilyName`:
the record is exactly the renamed original (the only records the stage adds
are the two nameID 25 prefixes). -/
lemma getName_setFamilyName {f g : Font} {next : Str} {prevs : List Str}
    (hprev : getFamilyNames f = .ok prevs)
    (hok : setFamilyName f next = .ok g) {k : NameKey} (hk : ¬ k.nameID = 25) :
    getName g k = (getName f k).map
      (fun s => (renameRec prevs (psVariantsOf prevs) next
        (listReplace next [' '] []) ⟨k, s⟩).string) := by
  have h1 : ¬ k = winID25Key := fun hc => hk (by rw [hc]; rfl)
  have h2 : ¬ k = macID25Key := fun hc => hk (by rw [hc]; rfl)
  by_cases hcond : hasID25 f = false ∧ containsSub next variableStr = true
  · cases hw : getName f winSubKey with
    | none =>
        rw [setFamilyName_eq_attr hprev next hcond.1 hcond.2 hw] at hok
        exact absurd hok (by simp)
    | some w =>
        rw [setFamilyName_eq_synth hprev next hcond.1 hcond.2 hw] at hok
        have hg := Except.ok.inj hok
        subst hg
        show lookupRec (setNameRecs (setNameRecs _ _ macID25Key) _ winID25Key) k = _
        rw [lookupRec_setNameRecs_other _ _ h1, lookupRec_setNameRecs_other _ _ h2]
        exact lookupRec_map_rename f.names k prevs (psVariantsOf prevs) next
          (listReplace next [' '] [])
  · rw [setFamilyName_eq_no_synth hprev next hcond] at hok
    have hg := Except.ok.inj hok
    subst hg
    exact lookupRec_map_rename f.names k prevs (psVariantsOf prevs) next
      (listReplace next [' '] [])

/-- Records outside the family-related set (in particular all style-name
slots) are untouched by a successful `setFamilyName`. -/
lemma getName_setFamilyName_not_fam {f g : Font} {next : Str}
    (hok : setFamilyName f next = .ok g) {k : NameKey}
    (hk : k.nameID ∉ FAMILY_RELATED_IDS) :
    getName g k = getName f k := by
  cases hprev : getFamilyNames f with
  | error e =>
      rw [getFamilyNames_error_setFamilyName hprev next] at hok
      exact absurd hok (by simp)
  | ok prevs =>
      have hk25 : ¬ k.nameID = 25 := fun hc => hk (by rw [hc]; decide)
      rw [getName_setFamilyName hprev hok hk25]
      cases hl : getName f k with
      | none => rfl
      | some s =>
          rw [Option.map_some', renameRec_not_fam_string hk]

lemma collectSlots_congr {f g : Font} {ks : List NameKey}
    (h : ∀ k ∈ ks, getName g k = getName f k) :
    collectSlots g ks = collectSlots f ks := by
  unfold collectSlots
  induction ks with
  | nil => rfl
  | cons k ks' ih =>
      rw [List.filterMap_cons, List.filterMap_cons, h k (by simp)]
      cases getName f k <;>
        rw [ih (fun k' hk' => h k' (by simp [hk']))]

lemma styleSlots_not_fam : ∀ k ∈ styleSlots, k.nameID ∉ FAMILY_RELATED_IDS := by
  decide

/-- `getStyleName` sees the same records before and after the family rename. -/
lemma getStyleName_setFamilyName {f g : Font} {next : Str}
    (hok : setFamilyName f next = .ok g) :
    getStyleName g = getStyleName f := by
  unfold getStyleName
  rw [collectSlots_congr
    (fun k hk => getName_setFamilyName_not_fam hok (styleSlots_not_fam k hk))]

lemma no_id25_of_hasID25_false {f : Font} (h : hasID25 f = false) :
    ∀ r ∈ f.names, ¬ r.key.nameID = 25 := by
  intro r hr hc
  unfold hasID25 at h
  rw [List.any_eq_false] at h
  exact h r hr (by simp [hc])

/-- The records a successful `setFamilyName` produces, below the length of
the original table: exactly the renamed originals (the synthesized nameID 25
records, when any, are appended at the end). -/
lemma setFamilyName_names_take {f g : Font} {next : Str} {prevs : List Str}
    (hprev : getFamilyNames f = .ok prevs)
    (hok : setFamilyName f next = .ok g) :
    g.names.take f.names.length =
      f.names.map (renameRec prevs (psVariantsOf prevs) next
        (listReplace next [' '] [])) := by
  have hlen : (f.names.map (renameRec prevs (psVariantsOf prevs) next
      (listReplace next [' '] []))).length = f.names.length := List.length_map _ _
  by_cases hcond : hasID25 f = false ∧ containsSub next variableStr = true
  · cases hw : getName f winSubKey with
    | none =>
        rw [setFamilyName_eq_attr hprev next hcond.1 hcond.2 hw] at hok
        exact absurd hok (by simp)
    | some w =>
        rw [setFamilyName_eq_synth hprev next hcond.1 hcond.2 hw] at hok
        have hg := Except.ok.inj hok
        subst hg
        have hno25 := no_id25_of_hasID25_false hcond.1
        have habs1 : ∀ r ∈ f.names.map (renameRec prevs (psVariantsOf prevs) next
            (listReplace next [' '] [])), ¬ r.key = macID25Key := by
          intro r hr hc
          obtain ⟨r0, hr0, rfl⟩ := List.mem_map.mp hr
          rw [renameRec_key] at hc
          exact hno25 r0 hr0 (by rw [hc]; rfl)
        show (setNameRecs (setNameRecs _ _ macID25Key) _ winID25Key).take _ = _
        rw [setNameRecs_of_absent habs1]
        have habs2 : ∀ r ∈ f.names.map (renameRec prevs (psVariantsOf prevs) next
            (listReplace next [' '] [])) ++
            [⟨macID25Key, remove_whitespace next ++
              (if containsSub w italicStr then italicStr else [])⟩],
            ¬ r.key = winID25Key := by
          intro r hr hc
          rcases List.mem_append.mp hr with hr | hr
          · obtain ⟨r0, hr0, rfl⟩ := List.mem_map.mp hr
            rw [renameRec_key] at hc
            exact hno25 r0 hr0 (by rw [hc]; rfl)
          · have : r = ⟨macID25Key, remove_whitespace next ++
                (if containsSub w italicStr then italicStr else [])⟩ := by
              simpa using hr
            rw [this] at hc
            have hkk : macID25Key = winID25Key := hc
            exact absurd hkk (by decide)
        rw [setNameRecs_of_absent habs2, List.append_assoc, ← hlen]
        exact List.take_left' rfl
  · rw [setFamilyName_eq_no_synth hprev next hcond] at hok
    have hg := Except.ok.inj hok
    subst hg
    rw [← hlen, List.take_length]

lemma dedupKeep_of_all_seen {l seen : List Str} (h : ∀ y ∈ l, y ∈ seen) :
    dedupKeep seen l = [] := by
  induction l generalizing seen with
  | nil => rfl
  | cons x xs ih =>
      rw [dedupKeep, if_pos (h x (by simp))]
      exact ih (fun y hy => h y (by simp [hy]))

lemma dedupStrs_all_eq {l : List Str} {a : Str} (hne : l ≠ [])
    (h : ∀ y ∈ l, y = a) : dedupStrs l = [a] := by
  cases l with
  | nil => exact absurd rfl hne
  | cons x xs =>
      have hx : x = a := h x (by simp)
      subst hx
      unfold dedupStrs
      rw [dedupKeep, if_neg (List.not_mem_nil x)]
      rw [dedupKeep_of_all_seen (fun y hy => by simp [h y (by simp [hy])])]

lemma getFamilyNames_all_eq {f : Font} {a : Str}
    (hne : collectSlots f famSlots ≠ [])
    (h : ∀ y ∈ collectSlots f famSlots, y = a) :
    getFamilyNames f = .ok [a] := by
  unfold getFamilyNames
  rw [dedupStrs_all_eq hne h, if_neg (by simp)]
  rfl

lemma getFamilyNames_of_famSlotsInter {f : Font} (h : famSlotsInter f) :
    getFamilyNames f = .ok [interStr] := by
  obtain ⟨hall, k0, hk0, hk0v⟩ := h
  apply getFamilyNames_all_eq
  · intro hempty
    have hmem : interStr ∈ collectSlots f famSlots :=
      List.mem_filterMap.mpr ⟨k0, hk0, hk0v⟩
    rw [hempty] at hmem
    exact List.not_mem_nil _ hmem
  · intro y hy
    obtain ⟨k, hk, hkv⟩ := List.mem_filterMap.mp hy
    rcases hall k hk with hn | hs
    · rw [hn] at hkv
      exact absurd hkv (by simp)
    · rw [hs] at hkv
      exact (Option.some.inj hkv).symm

lemma famSlots_not_25 : ∀ k ∈ famSlots, ¬ k.nameID = 25 := by decide

lemma renameRec_on_famSlot_inter : ∀ k ∈ famSlots,
    (renameRec [interStr] (psVariantsOf [interStr]) interVariableStr
      (listReplace interVariableStr [' '] []) ⟨k, interStr⟩).string =
      interVariableStr := by decide

/-- After renaming from "Inter" to "Inter Variable", the candidate list of a
second rename is exactly ["Inter Variable"]. -/
lemma getFamilyNames_after_pass1 {f g : Font} (hfs : famSlotsInter f)
    (hok : setFamilyName f interVariableStr = .ok g) :
    getFamilyNames g = .ok [interVariableStr] := by
  have hprev := getFamilyNames_of_famSlotsInter hfs
  obtain ⟨hall, k0, hk0, hk0v⟩ := hfs
  apply getFamilyNames_all_eq
  · intro hempty
    have hg0 : getName g k0 = some interVariableStr := by
      rw [getName_setFamilyName hprev hok (famSlots_not_25 k0 hk0), hk0v,
        Option.map_some', renameRec_on_famSlot_inter k0 hk0]
    have hmem : interVariableStr ∈ collectSlots g famSlots :=
      List.mem_filterMap.mpr ⟨k0, hk0, hg0⟩
    rw [hempty] at hmem
    exact List.not_mem_nil _ hmem
  · intro y hy
    obtain ⟨k, hk, hkv⟩ := List.mem_filterMap.mp hy
    rw [getName_setFamilyName hprev hok (famSlots_not_25 k hk)] at hkv
    rcases hall k hk with hn | hs
    · rw [hn] at hkv
      exact absurd hkv (by simp)
    · rw [hs, Option.map_some', renameRec_on_famSlot_inter k hk] at hkv
      exact (Option.some.inj hkv).symm

/-- C9: renaming the family "Inter" → "Inter Variable" → "Inter" restores
every original name record (the font keeps its original records as the
prefix of the resulting table; only synthesized nameID 25 records may follow
them).  The Windows subfamily record is required so the italic check of the
first rename's nameID 25 synthesis can run. -/
theorem C9_family_rename_roundtrip (f : Font) (w : Str)
    (hfs : famSlotsInter f) (hw : getName f winSubKey = some w) :
    ∃ g h, setFamilyName f interVariableStr = .ok g ∧
      setFamilyName g interStr = .ok h ∧
      h.names.take f.names.length = f.names := by
  have hprev := getFamilyNames_of_famSlotsInter hfs
  obtain ⟨g, hg⟩ : ∃ g, setFamilyName f interVariableStr = .ok g := by
    by_cases hcond : hasID25 f = false ∧
        containsSub interVariableStr variableStr = true
    · exact ⟨_, setFamilyName_eq_synth hprev _ hcond.1 hcond.2 hw⟩
    · exact ⟨_, setFamilyName_eq_no_synth hprev _ hcond⟩
  have hprev2 := getFamilyNames_after_pass1 hfs hg
  have hcond2 : ¬ (hasID25 g = false ∧ containsSub interStr variableStr = true) := by
    intro hc
    exact absurd hc.2 (by decide)
  refine ⟨g, _, hg, setFamilyName_eq_no_synth hprev2 interStr hcond2, ?_⟩
  have htake := setFamilyName_names_take hprev hg
  have e1 : psVariantsOf [interStr] = [interStr] := by decide
  have e2 : listReplace interVariableStr [' '] [] = interVariableNoSpaceStr := by
    decide
  have e3 : psVariantsOf [interVariableStr] =
      [interVariableNoSpaceStr, interHyphenVariableStr] := by decide
  have e4 : listReplace interStr [' '] [] = interStr := by decide
  rw [e1, e2] at htake
  show (g.names.map (renameRec [interVariableStr]
      (psVariantsOf [interVariableStr]) interStr
      (listReplace interStr [' '] []))).take f.names.length = f.names
  rw [e3, e4, ← List.map_take, htake, List.map_map]
  have hid : ∀ r ∈ f.names,
      (renameRec [interVariableStr]
          [interVariableNoSpaceStr, interHyphenVariableStr] interStr interStr ∘
        renameRec [interStr] [interStr] interVariableStr
          interVariableNoSpaceStr) r = id r :=
    fun r _ => renameRec_roundtrip r
  rw [List.map_congr_left hid, List.map_id]

/-- Witness for C9 at a concrete font. -/
theorem C9_family_rename_roundtrip_witness :
    famSlotsInter fontW4 ∧ getName fontW4 winSubKey = some "Bold".toList ∧
    (∃ g h, setFamilyName fontW4 interVariableStr = .ok g ∧
      setFamilyName g interStr = .ok h ∧
      h.names.take fontW4.names.length = fontW4.names) :=
  ⟨by unfold famSlotsInter; decide, by decide,
    C9_family_rename_roundtrip fontW4 "Bold".toList
      (by unfold famSlotsInter; decide) (by decide)⟩

lemma containsSub_replaceFirst {s pat next : Str} {i : Nat} (hp : pat ≠ [])
    (hfind : findSub s pat = some i) :
    containsSub (replaceFirstSub s pat next) next = true := by
  unfold replaceFirstSub
  rw [hfind]
  obtain ⟨hocc, _⟩ := (findSub_eq_some_iff s pat i).mp hfind
  have hi : i < s.length := occAt_lt_length hp hocc
  have hlen_take : (s.take i).length = i := List.length_take_of_le hi.le
  have hdrop : (s.take i ++ next ++ s.drop (i + pat.length)).drop i =
      next ++ s.drop (i + pat.length) := by
    rw [List.append_assoc, List.drop_left' hlen_take]
  show containsSub (s.take i ++ next ++ s.drop (i + pat.length)) next = true
  have hoccnew : occAt (s.take i ++ next ++ s.drop (i + pat.length)) next i := by
    rw [occAt, hdrop]
    exact startsWith_append_self next _
  exact containsSub_of_occAt hoccnew

/-- C1 counterexample: after the full default pipeline on a font whose
unique-ID record is "Inter Inter", the record reads "InterVariable Inter" —
the second occurrence of the previous family name "Inter" survives (and the
new name itself still contains the substring "Inter"), so no family-related
record set is free of previous-family substrings. -/
theorem C1_counterexample :
    (runPipeline fontC1 interVariableStr).isOk = true ∧
    getName (bake fontC1 interVariableStr) ⟨3, 3, 1, 0x409⟩ =
      some "InterVariable Inter".toList ∧
    containsSub "InterVariable Inter".toList interStr = true ∧
    (3 : Nat) ∈ FAMILY_RELATED_IDS := by decide

/-- C2, amended: the STAT description has exactly 3 axes, ordered
optical-size (0), weight (1), italic (2); the weight axis has exactly the 9
entries with the claimed nominal values and ranges, Regular carrying the
elidable flag 0x2 and linkedValue 660.  The emitted record formats are 2 for
every range entry and 1 for the italic font's single point entry — but the
roman font's "Roman" entry is a linked point value, a format-3 record, so
formats 1 and 2 are NOT the only formats produced (format 4 never is). -/
theorem C2_stat_table_shape : ∀ b : Bool,
    (stat_axes_format_2 b).map (fun a => (a.tag, a.ordering)) =
      [("opsz".toList, 0), ("wght".toList, 1), ("ital".toList, 2)] ∧
    ((stat_axes_format_2 b).map (fun a => a.values.map (fun v =>
        (v.nominalValue, v.rangeMinValue, v.rangeMaxValue))))[1]? =
      some [(some 100, some 100, some 150), (some 200, some 150, some 250),
        (some 300, some 250, some 350), (some 400, some 350, some 450),
        (some 500, some 450, some 540), (some 580, some 540, some 620),
        (some 660, some 620, some 720), (some 780, some 720, some 840),
        (some 900, some 840, some 900)]  ∧
    ((stat_axes_format_2 b).map (fun a => a.values.map (fun v =>
        (v.flags, v.linkedValue))))[1]? =
      some [(0, none), (0, none), (0, none), (2, some 660), (0, none),
        (0, none), (0, none), (0, none), (0, none)] ∧
    statFormats (stat_axes_format_2 b) =
      (if b then [2, 2, 2, 2, 2, 2, 2, 2, 2, 2, 2, 1]
       else [2, 2, 2, 2, 2, 2, 2, 2, 2, 2, 2, 3]) := by
  intro b
  cases b <;> decide

/-- C2 counterexample: for a roman (non-italic) font the italic axis entry
(value 0, linked to 1) is a format-3 axis-value record, so the STAT table
does not consist of format-1 and format-2 records only. -/
theorem C2_counterexample :
    statFormats (stat_axes_format_2 false) =
      [2, 2, 2, 2, 2, 2, 2, 2, 2, 2, 2, 3] ∧
    (3 : Nat) ≠ 1 ∧ (3 : Nat) ≠ 2 := by decide

/-- C3: the candidate list IS deduplicated, but it is ordered by reverse
code-point comparison (`sort()` then `reverse()`), not by descending length:
for family names "Aaaa" and "B" the single-character "B" comes first even
though it is the shorter candidate — contradicting the `# longest first`
comment in `getFamilyNames` and the longest-first matching the spec relies
on. -/
theorem C3_candidates_not_longest_first :
    getFamilyNames fontC3 = .ok ["B".toList, "Aaaa".toList] ∧
    ("B".toList : Str).length < ("Aaaa".toList : Str).length := ⟨rfl, by decide⟩

/-- C5: the italic flag is read from the Windows subfamily record, and the
italic axis carries exactly one value entry — {value 1, "Italic", no flags,
no link} for an italic font, {value 0, "Roman", elidable flag 0x2, linked to
1} for a roman font. -/
theorem C5_italic_axis_entry (f : Font) (s : Str)
    (hw : getName f winSubKey = some s) :
    gen_stat f = .ok (stat_axes_format_2 (containsSub s italicStr)) ∧
    ∀ b : Bool, ((stat_axes_format_2 b).map (fun a => a.values))[2]? =
      some [if b then ⟨some 1, none, none, none, "Italic".toList, 0, none⟩
            else ⟨some 0, none, none, none, "Roman".toList, 0x2, some 1⟩] := by
  constructor
  · unfold gen_stat font_is_italic
    rw [hw]
  · decide

/-- Witness for C5 at concrete italic and roman fonts. -/
theorem C5_italic_axis_entry_witness :
    getName fontW7 winSubKey = some "Bold Italic".toList ∧
    gen_stat fontW7 = .ok (stat_axes_format_2 true) ∧
    getName fontW4 winSubKey = some "Bold".toList ∧
    gen_stat fontW4 = .ok (stat_axes_format_2 false) := by
  refine ⟨by decide, ?_, by decide, ?_⟩
  · have h := (C5_italic_axis_entry fontW7 "Bold Italic".toList (by decide)).1
    rw [h, show containsSub "Bold Italic".toList italicStr = true from by decide]
  · have h := (C5_italic_axis_entry fontW4 "Bold".toList (by decide)).1
    rw [h, show containsSub "Bold".toList italicStr = false from by decide]

lemma collectSlots_ne_nil_of_getFamilyNames {f : Font} {ps : List Str}
    (h : getFamilyNames f = .ok ps) : collectSlots f famSlots ≠ [] := by
  intro hc
  unfold getFamilyNames at h
  rw [hc] at h
  simp [dedupStrs, dedupKeep] at h

lemma getFamilyName_ok_of_collect_ne_nil {f : Font}
    (h : collectSlots f famSlots ≠ []) : ∃ fam, getFamilyName f = .ok fam := by
  unfold getFamilyName
  cases hcs : collectSlots f famSlots with
  | nil => exact absurd hcs h
  | cons a l => exact ⟨a, rfl⟩

lemma exists_famSlot_of_collect_ne_nil {f : Font}
    (h : collectSlots f famSlots ≠ []) :
    ∃ k ∈ famSlots, ∃ y, getName f k = some y := by
  cases hcs : collectSlots f famSlots with
  | nil => exact absurd hcs h
  | cons a l =>
      have ha : a ∈ collectSlots f famSlots := by rw [hcs]; simp
      obtain ⟨k, hk, hkv⟩ := List.mem_filterMap.mp ha
      exact ⟨k, hk, a, hkv⟩

/-- Family records survive `setFamilyName` (renamed, not deleted), so the
follow-up `getFamilyName` of `setStyleName` succeeds. -/
lemma getFamilyName_after_setFamilyName {f g : Font} {next : Str}
    {prevs : List Str} (hprev : getFamilyNames f = .ok prevs)
    (hok : setFamilyName f next = .ok g) :
    ∃ fam, getFamilyName g = .ok fam := by
  obtain ⟨k, hk, y, hky⟩ :=
    exists_famSlot_of_collect_ne_nil (collectSlots_ne_nil_of_getFamilyNames hprev)
  have hgk : getName g k = some ((renameRec prevs (psVariantsOf prevs) next
      (listReplace next [' '] []) ⟨k, y⟩).string) := by
    rw [getName_setFamilyName hprev hok (famSlots_not_25 k hk), hky,
      Option.map_some']
  apply getFamilyName_ok_of_collect_ne_nil
  intro hc
  have hmem : (renameRec prevs (psVariantsOf prevs) next
      (listReplace next [' '] []) ⟨k, y⟩).string ∈ collectSlots g famSlots :=
    List.mem_filterMap.mpr ⟨k, hk, hgk⟩
  rw [hc] at hmem
  exact List.not_mem_nil _ hmem

lemma getFamilyName_error_setStyleName {f : Font} {e : Err}
    (h : getFamilyName f = .error e) (sty : Str) :
    setStyleName f sty = .error e := by
  unfold setStyleName
  rw [h]

lemma getName_set_full_name_other {f : Font} {k : NameKey} (full ps : Str)
    (h4 : ¬ k.nameID = 4) (h6 : ¬ k.nameID = 6) :
    getName (set_full_name f full ps) k = getName f k := by
  have h1 : ¬ k = winPsKey := fun hc => h6 (by rw [hc]; rfl)
  have h2 : ¬ k = macPsKey := fun hc => h6 (by rw [hc]; rfl)
  have h3 : ¬ k = winFullKey := fun hc => h4 (by rw [hc]; rfl)
  have h5 : ¬ k = macFullKey := fun hc => h4 (by rw [hc]; rfl)
  show lookupRec (setNameRecs (setNameRecs (setNameRecs (setNameRecs f.names
    full macFullKey) full winFullKey) ps macPsKey) ps winPsKey) k = _
  rw [lookupRec_setNameRecs_other _ _ h1, lookupRec_setNameRecs_other _ _ h2,
    lookupRec_setNameRecs_other _ _ h3, lookupRec_setNameRecs_other _ _ h5]
  rfl

lemma getName_set_full_name_vals (f : Font) (full ps : Str) :
    getName (set_full_name f full ps) winPsKey = some ps ∧
    getName (set_full_name f full ps) macPsKey = some ps ∧
    getName (set_full_name f full ps) winFullKey = some full ∧
    getName (set_full_name f full ps) macFullKey = some full := by
  refine ⟨?_, ?_, ?_, ?_⟩
  · exact lookupRec_setNameRecs_self _ _ _
  · show lookupRec (setNameRecs _ ps winPsKey) macPsKey = some ps
    rw [lookupRec_setNameRecs_other _ _ (by decide)]
    exact lookupRec_setNameRecs_self _ _ _
  · show lookupRec (setNameRecs (setNameRecs _ ps macPsKey) ps winPsKey)
      winFullKey = some full
    rw [lookupRec_setNameRecs_other _ _ (by decide),
      lookupRec_setNameRecs_other _ _ (by decide)]
    exact lookupRec_setNameRecs_self _ _ _
  · show lookupRec (setNameRecs (setNameRecs (setNameRecs _ full winFullKey)
      ps macPsKey) ps winPsKey) macFullKey = some full
    rw [lookupRec_setNameRecs_other _ _ (by decide),
      lookupRec_setNameRecs_other _ _ (by decide),
      lookupRec_setNameRecs_other _ _ (by decide)]
    exact lookupRec_setNameRecs_self _ _ _

lemma setStyleName_ok {f : Font} {fam : Str} (hfam : getFamilyName f = .ok fam)
    (sty : Str) :
    setStyleName f sty = .ok ⟨(set_full_name f
      (if sty = regularStr then stripStr fam else stripStr fam ++ [' '] ++ sty)
      (remove_whitespace
        (if sty = regularStr then stripStr fam
         else stripStr fam ++ [' '] ++ sty))).names.map
      (fun r => if r.key.nameID = 2 ∨ r.key.nameID = 17
        then ⟨r.key, sty⟩ else r)⟩ := by
  unfold setStyleName
  rw [hfam]

lemma styleOverwrite_key (sty : Str) (r : NameRecord) :
    ((fun r : NameRecord => if r.key.nameID = 2 ∨ r.key.nameID = 17
      then (⟨r.key, sty⟩ : NameRecord) else r) r).key = r.key := by
  by_cases h : r.key.nameID = 2 ∨ r.key.nameID = 17 <;> simp [h]

/-- Lookup of a subfamily/typographic-subfamily key after `setStyleName`:
the record exists iff it existed, and then holds the new style string. -/
lemma getName_setStyleName_style {f g : Font} {sty : Str}
    (hok : setStyleName f sty = .ok g) {k : NameKey}
    (hk : k.nameID = 2 ∨ k.nameID = 17) :
    getName g k = (getName f k).map (fun _ => sty) := by
  cases hfam : getFamilyName f with
  | error e =>
      rw [getFamilyName_error_setStyleName hfam sty] at hok
      exact absurd hok (by simp)
  | ok fam =>
      rw [setStyleName_ok hfam sty] at hok
      have hg := Except.ok.inj hok
      subst hg
      have h4 : ¬ k.nameID = 4 := by rcases hk with h | h <;> omega
      have h6 : ¬ k.nameID = 6 := by rcases hk with h | h <;> omega
      show lookupRec ((set_full_name f _ _).names.map _) k = _
      rw [lookupRec_map_keyed _ (styleOverwrite_key sty)]
      have hother : getName (set_full_name f
          (if sty = regularStr then stripStr fam
           else stripStr fam ++ [' '] ++ sty)
          (remove_whitespace (if sty = regularStr then stripStr fam
            else stripStr fam ++ [' '] ++ sty))) k = getName f k :=
        getName_set_full_name_other _ _ h4 h6
      rw [show lookupRec (set_full_name f _ _).names k =
        getName (set_full_name f _ _) k from rfl, hother]
      cases getName f k with
      | none => rfl
      | some s => simp [hk]

/-- Full-name and PostScript-name records written by `setStyleName`. -/
lemma getName_setStyleName_full {f g : Font} {fam sty : Str}
    (hfam : getFamilyName f = .ok fam) (hok : setStyleName f sty = .ok g) :
    getName g winFullKey = some (if sty = regularStr then stripStr fam
      else stripStr fam ++ [' '] ++ sty) ∧
    getName g macFullKey = some (if sty = regularStr then stripStr fam
      else stripStr fam ++ [' '] ++ sty) ∧
    getName g winPsKey = some (remove_whitespace
      (if sty = regularStr then stripStr fam
       else stripStr fam ++ [' '] ++ sty)) ∧
    getName g macPsKey = some (remove_whitespace
      (if sty = regularStr then stripStr fam
       else stripStr fam ++ [' '] ++ sty)) := by
  rw [setStyleName_ok hfam sty] at hok
  have hg := Except.ok.inj hok
  subst hg
  obtain ⟨hps, hps2, hfull, hfull2⟩ := getName_set_full_name_vals f
    (if sty = regularStr then stripStr fam else stripStr fam ++ [' '] ++ sty)
    (remove_whitespace (if sty = regularStr then stripStr fam
      else stripStr fam ++ [' '] ++ sty))
  refine ⟨?_, ?_, ?_, ?_⟩ <;>
    · show lookupRec ((set_full_name f _ _).names.map _) _ = _
      rw [lookupRec_map_keyed _ (styleOverwrite_key sty)]
      first
        | (rw [show lookupRec (set_full_name f _ _).names winFullKey =
              getName (set_full_name f _ _) winFullKey from rfl, hfull,
            Option.map_some', if_neg (by decide : ¬ (winFullKey.nameID = 2 ∨
              winFullKey.nameID = 17))])
        | (rw [show lookupRec (set_full_name f _ _).names macFullKey =
              getName (set_full_name f _ _) macFullKey from rfl, hfull2,
            Option.map_some', if_neg (by decide : ¬ (macFullKey.nameID = 2 ∨
              macFullKey.nameID = 17))])
        | (rw [show lookupRec (set_full_name f _ _).names winPsKey =
              getName (set_full_name f _ _) winPsKey from rfl, hps,
            Option.map_some', if_neg (by decide : ¬ (winPsKey.nameID = 2 ∨
              winPsKey.nameID = 17))])
        | (rw [show lookupRec (set_full_name f _ _).names macPsKey =
              getName (set_full_name f _ _) macPsKey from rfl, hps2,
            Option.map_some', if_neg (by decide : ¬ (macPsKey.nameID = 2 ∨
              macPsKey.nameID = 17))])

/-- Every subfamily/typographic-subfamily record after `setStyleName` holds
exactly the new style string. -/
lemma setStyleName_style_records {f g : Font} {sty : Str}
    (hok : setStyleName f sty = .ok g) :
    ∀ r ∈ g.names, (r.key.nameID = 2 ∨ r.key.nameID = 17) → r.string = sty := by
  cases hfam : getFamilyName f with
  | error e =>
      rw [getFamilyName_error_setStyleName hfam sty] at hok
      exact absurd hok (by simp)
  | ok fam =>
      rw [setStyleName_ok hfam sty] at hok
      have hg := Except.ok.inj hok
      subst hg
      intro r hr hk
      obtain ⟨r0, _, rfl⟩ := List.mem_map.mp hr
      by_cases h0 : r0.key.nameID = 2 ∨ r0.key.nameID = 17
      · simp [h0]
      · exfalso
        rw [if_neg h0] at hk
        exact h0 hk

lemma collectSlots_mapped {f g : Font} {ks : List NameKey} {sty : Str}
    (h : ∀ k ∈ ks, getName g k = (getName f k).map (fun _ => sty)) :
    collectSlots g ks = (collectSlots f ks).map (fun _ => sty) := by
  unfold collectSlots
  induction ks with
  | nil => rfl
  | cons k ks' ih =>
      rw [List.filterMap_cons, List.filterMap_cons, h k (by simp)]
      cases getName f k with
      | none => exact ih (fun k' hk' => h k' (by simp [hk']))
      | some s =>
          rw [Option.map_some', List.map_cons]
          rw [ih (fun k' hk' => h k' (by simp [hk']))]

lemma styleSlots_ids : ∀ k ∈ styleSlots, k.nameID = 2 ∨ k.nameID = 17 := by
  decide

/-- After `setStyleName`, `getStyleName` returns the written style (provided
the font had any style record at all). -/
lemma getStyleName_after_setStyleName {f g : Font} {sty s0 : Str}
    (hok : setStyleName f sty = .ok g) (hs : getStyleName f = .ok s0) :
    getStyleName g = .ok sty := by
  have hmap : ∀ k ∈ styleSlots, getName g k = (getName f k).map (fun _ => sty) :=
    fun k hk => getName_setStyleName_style hok (styleSlots_ids k hk)
  unfold getStyleName at hs ⊢
  rw [collectSlots_mapped hmap]
  cases hcs : collectSlots f styleSlots with
  | nil => rw [hcs] at hs; exact absurd hs (by simp)
  | cons a l => rfl

/-! ### Whitespace-normalization theory for the style cleanup -/

lemma normWS_head_space {d : Char} {rest : Str}
    (h : (normalize_whitespace (d :: rest)).head? = some ' ') :
    isSpace d = true := by
  cases rest with
  | nil =>
      by_cases hd : isSpace d
      · exact hd
      · rw [normalize_whitespace, if_neg hd] at h
        have hd' : d = ' ' := by simpa using h
        rw [hd']
        decide
  | cons e rest' =>
      by_cases hde : isSpace d = true ∧ isSpace e = true
      · exact hde.1
      · rw [normalize_whitespace, if_neg hde] at h
        by_cases hd : isSpace d
        · exact hd
        · rw [if_neg hd] at h
          have hd' : d = ' ' := by simpa using h
          rw [hd']
          decide

lemma normWS_normed (s : Str) :
    (∀ c ∈ normalize_whitespace s, isSpace c = true → c = ' ') ∧
    List.Chain' (fun a b => ¬(a = ' ' ∧ b = ' ')) (normalize_whitespace s) := by
  induction s using normalize_whitespace.induct with
  | case1 => exact ⟨by simp [normalize_whitespace], by simp [normalize_whitespace]⟩
  | case2 c hc =>
      rw [normalize_whitespace, if_pos hc]
      exact ⟨by intro x hx _; simpa using hx, by simp⟩
  | case3 c hc =>
      rw [normalize_whitespace, if_neg hc]
      refine ⟨?_, by simp⟩
      intro x hx hsp
      have hxc : x = c := by simpa using hx
      rw [hxc] at hsp
      exact absurd hsp hc
  | case4 c d rest hcd ih =>
      rw [normalize_whitespace, if_pos hcd]
      exact ih
  | case5 c d rest hcd ih =>
      rw [normalize_whitespace, if_neg hcd]
      constructor
      · intro y hy hsp
        rcases List.mem_cons.mp hy with hy | hy
        · by_cases hc : isSpace c
          · rw [hy, if_pos hc]
          · rw [if_neg hc] at hy
            rw [hy] at hsp
            exact absurd hsp hc
        · exact ih.1 y hy hsp
      · rw [List.chain'_cons']
        refine ⟨?_, ih.2⟩
        intro b hb hcontra
        obtain ⟨hx, hb'⟩ := hcontra
        have hc : isSpace c = true := by
          by_cases hc : isSpace c
          · exact hc
          · rw [if_neg hc] at hx
            rw [hx] at hc
            exact absurd (by decide : isSpace ' ' = true) hc
        have hd : ¬ isSpace d = true := fun hd => hcd ⟨hc, hd⟩
        have hbs : (normalize_whitespace (d :: rest)).head? = some ' ' := by
          rw [← hb']
          exact hb
        exact hd (normWS_head_space hbs)

lemma normWS_id_of_normed (s : Str)
    (hall : ∀ c ∈ s, isSpace c = true → c = ' ')
    (hch : List.Chain' (fun a b => ¬(a = ' ' ∧ b = ' ')) s) :
    normalize_whitespace s = s := by
  induction s using normalize_whitespace.induct with
  | case1 => rfl
  | case2 c hc =>
      rw [normalize_whitespace, if_pos hc, hall c (by simp) hc]
  | case3 c hc => rw [normalize_whitespace, if_neg hc]
  | case4 c d rest hcd ih =>
      exfalso
      have hc := hall c (by simp) hcd.1
      have hd := hall d (by simp) hcd.2
      exact (List.chain'_cons.mp hch).1 ⟨hc, hd⟩
  | case5 c d rest hcd ih =>
      rw [normalize_whitespace, if_neg hcd]
      rw [ih (fun x hx hsp => hall x (by simp [hx]) hsp)
        (List.chain'_cons.mp hch).2]
      by_cases hc : isSpace c
      · rw [if_pos hc, hall c (by simp) hc]
      · rw [if_neg hc]

lemma dropTrailing_cons (p : Char → Bool) (c : Char) (cs : Str) :
    dropTrailing p (c :: cs) =
      if dropTrailing p cs = [] ∧ p c = true then []
      else c :: dropTrailing p cs := rfl

lemma dropTrailing_is_initial (p : Char → Bool) :
    ∀ l : Str, ∃ u, l = dropTrailing p l ++ u := by
  intro l
  induction l with
  | nil => exact ⟨[], rfl⟩
  | cons c cs ih =>
      obtain ⟨u, hu⟩ := ih
      by_cases h : dropTrailing p cs = [] ∧ p c = true
      · refine ⟨c :: cs, ?_⟩
        rw [dropTrailing_cons, if_pos h]
        rfl
      · refine ⟨u, ?_⟩
        rw [dropTrailing_cons, if_neg h, List.cons_append, ← hu]

lemma dropTrailing_idem (p : Char → Bool) :
    ∀ l : Str, dropTrailing p (dropTrailing p l) = dropTrailing p l := by
  intro l
  induction l with
  | nil => rfl
  | cons c cs ih =>
      rw [dropTrailing_cons]
      by_cases h : dropTrailing p cs = [] ∧ p c = true
      · rw [if_pos h]
        rfl
      · rw [if_neg h, dropTrailing_cons, ih, if_neg h]

lemma head?_dropWhile_false (p : Char → Bool) :
    ∀ (l : Str) (c : Char), (l.dropWhile p).head? = some c → p c = false := by
  intro l
  induction l with
  | nil => intro c hc; simp at hc
  | cons c' cs ih =>
      intro c hc
      by_cases hp : p c' = true
      · rw [List.dropWhile_cons_of_pos hp] at hc
        exact ih c hc
      · rw [List.dropWhile_cons_of_neg hp] at hc
        have : c' = c := by simpa using hc
        rw [← this]
        simpa using hp

lemma head?_dropTrailing (p : Char → Bool) (l : Str) (c : Char)
    (h : (dropTrailing p l).head? = some c) : l.head? = some c := by
  cases l with
  | nil => simp [dropTrailing] at h
  | cons c' cs =>
      rw [dropTrailing_cons] at h
      by_cases hcond : dropTrailing p cs = [] ∧ p c' = true
      · rw [if_pos hcond] at h
        simp at h
      · rw [if_neg hcond] at h
        have : c' = c := by simpa using h
        rw [← this]
        rfl

lemma dropWhile_eq_self_of_head (p : Char → Bool) (l : Str)
    (h : ∀ c, l.head? = some c → p c = false) : l.dropWhile p = l := by
  cases l with
  | nil => rfl
  | cons c cs =>
      rw [List.dropWhile_cons_of_neg]
      rw [h c rfl]
      simp

lemma stripStr_idem (s : Str) : stripStr (stripStr s) = stripStr s := by
  show dropTrailing isSpace ((dropTrailing isSpace
    (s.dropWhile isSpace)).dropWhile isSpace) = _
  rw [dropWhile_eq_self_of_head isSpace _ (fun c hc =>
    head?_dropWhile_false isSpace s c (head?_dropTrailing isSpace _ c hc))]
  rw [dropTrailing_idem]
  rfl

lemma normed_stripStr {l : Str}
    (hall : ∀ c ∈ l, isSpace c = true → c = ' ')
    (hch : List.Chain' (fun a b => ¬(a = ' ' ∧ b = ' ')) l) :
    (∀ c ∈ stripStr l, isSpace c = true → c = ' ') ∧
    List.Chain' (fun a b => ¬(a = ' ' ∧ b = ' ')) (stripStr l) := by
  have hdw : l.takeWhile isSpace ++ l.dropWhile isSpace = l :=
    List.takeWhile_append_dropWhile isSpace l
  have hall1 : ∀ c ∈ l.dropWhile isSpace, isSpace c = true → c = ' ' := by
    intro c hc
    exact hall c (by rw [← hdw]; exact List.mem_append_right _ hc)
  have hch1 : List.Chain' (fun a b => ¬(a = ' ' ∧ b = ' '))
      (l.dropWhile isSpace) := by
    rw [← hdw] at hch
    exact (List.chain'_append.mp hch).2.1
  obtain ⟨u, hu⟩ := dropTrailing_is_initial isSpace (l.dropWhile isSpace)
  constructor
  · intro c hc
    refine hall1 c ?_
    rw [hu]
    exact List.mem_append_left _ hc
  · rw [hu] at hch1
    exact (List.chain'_append.mp hch1).1

lemma containsSub_cons_false {c : Char} {cs pat : Str}
    (h : containsSub (c :: cs) pat = false) :
    startsWith pat (c :: cs) = false ∧ containsSub cs pat = false := by
  unfold containsSub at h ⊢
  rw [findSub_cons] at h
  by_cases hsw : startsWith pat (c :: cs) = true
  · rw [if_pos hsw] at h
    simp at h
  · rw [if_neg hsw] at h
    refine ⟨by simpa using hsw, ?_⟩
    cases hfs : findSub cs pat with
    | none => rfl
    | some j =>
        rw [hfs] at h
        simp at h

lemma listReplaceGo_no_match {pat repl : Str} :
    ∀ (fuel : Nat) (s : Str), containsSub s pat = false →
      listReplaceGo pat repl fuel s = s := by
  intro fuel
  induction fuel with
  | zero =>
      intro s _
      cases s <;> rfl
  | succ n ih =>
      intro s hc
      cases s with
      | nil => rfl
      | cons c cs =>
          obtain ⟨hsw, hcs⟩ := containsSub_cons_false hc
          rw [listReplaceGo, if_neg (fun hcon => by
            rw [hsw] at hcon
            exact absurd hcon.2 (by simp))]
          rw [ih cs hcs]

lemma listReplace_no_match {s pat repl : Str} (h : containsSub s pat = false) :
    listReplace s pat repl = s :=
  listReplaceGo_no_match _ _ h

/-- The style cleanup is a closure operator on its own image: once the
"Display" removal no longer finds an occurrence, applying the cleanup again
changes nothing. -/
lemma remove_substring_fixed {s : Str}
    (h : containsSub (remove_substring s displayStr) displayStr = false) :
    remove_substring (remove_substring s displayStr) displayStr =
      remove_substring s displayStr := by
  have hnormed := normWS_normed (listReplace (stripStr s) displayStr [])
  have hnormedt := normed_stripStr hnormed.1 hnormed.2
  show stripStr (normalize_whitespace (listReplace
    (stripStr (remove_substring s displayStr)) displayStr [])) = _
  have hst : stripStr (remove_substring s displayStr) =
      remove_substring s displayStr := stripStr_idem _
  rw [hst, listReplace_no_match h]
  have hid : normalize_whitespace (remove_substring s displayStr) =
      remove_substring s displayStr :=
    normWS_id_of_normed _ hnormedt.1 hnormedt.2
  rw [hid, hst]

/-! ### Pipeline assembly -/

lemma setFamilyName_ok_exists {f : Font} {ps : List Str} {w : Str}
    (hprev : getFamilyNames f = .ok ps) (hw : getName f winSubKey = some w)
    (next : Str) : ∃ f1, setFamilyName f next = .ok f1 := by
  by_cases hcond : hasID25 f = false ∧ containsSub next variableStr = true
  · exact ⟨_, setFamilyName_eq_synth hprev next hcond.1 hcond.2 hw⟩
  · exact ⟨_, setFamilyName_eq_no_synth hprev next hcond⟩

lemma runPipeline_eq_ok {f f1 f2 : Font} {family s0 : Str} {st : List StatAxis}
    (hf1 : setFamilyName f family = .ok f1)
    (hs1 : getStyleName f1 = .ok s0)
    (hf2 : setStyleName f1 (if remove_substring s0 displayStr = [] then
      regularStr else remove_substring s0 displayStr) = .ok f2)
    (hst : gen_stat f2 = .ok st) :
    runPipeline f family = .ok (f2, st) := by
  unfold runPipeline
  simp only [hf1, hs1, hf2, hst]

lemma runPipeline_err_family {f : Font} {family : Str} {e : Err}
    (h : setFamilyName f family = .error e) :
    runPipeline f family = .error e := by
  unfold runPipeline
  simp only [h]

lemma runPipeline_err_style {f f1 : Font} {family : Str} {e : Err}
    (hf1 : setFamilyName f family = .ok f1)
    (h : getStyleName f1 = .error e) :
    runPipeline f family = .error e := by
  unfold runPipeline
  simp only [hf1, h]

lemma runPipeline_err_stat {f f1 f2 : Font} {family s0 : Str} {e : Err}
    (hf1 : setFamilyName f family = .ok f1)
    (hs1 : getStyleName f1 = .ok s0)
    (hf2 : setStyleName f1 (if remove_substring s0 displayStr = [] then
      regularStr else remove_substring s0 displayStr) = .ok f2)
    (h : gen_stat f2 = .error e) :
    runPipeline f family = .error e := by
  unfold runPipeline
  simp only [hf1, hs1, hf2, h]

lemma getElem?_setNameRecs_ne (s : Str) (k : NameKey) :
    ∀ (l : List NameRecord) (i : Nat) (r : NameRecord),
      l[i]? = some r → ¬ r.key = k → (setNameRecs l s k)[i]? = some r := by
  intro l
  induction l with
  | nil =>
      intro i r h _
      simp at h
  | cons a t ih =>
      intro i r h hne
      by_cases hk : a.key = k
      · rw [setNameRecs, if_pos hk]
        cases i with
        | zero =>
            have ha : a = r := by simpa using h
            rw [← ha] at hne
            exact absurd hk hne
        | succ j =>
            rw [List.getElem?_cons_succ] at h ⊢
            exact h
      · rw [setNameRecs, if_neg hk]
        cases i with
        | zero => simpa using h
        | succ j =>
            rw [List.getElem?_cons_succ] at h ⊢
            exact ih j r h hne

lemma fam_ids_not_style : ∀ a ∈ FAMILY_RELATED_IDS, ¬ (a = 2 ∨ a = 17) := by
  decide

lemma startsWith_refl (p : Str) : startsWith p p = true := by
  rw [startsWith_iff_take, List.take_length]

lemma containsSub_append_self (p x : Str) : containsSub (p ++ x) p = true := by
  refine containsSub_of_occAt (i := 0) ?_
  show startsWith p ((p ++ x).drop 0) = true
  rw [List.drop_zero]
  exact startsWith_append_self p x

/-- After the pass from "Inter" to "Inter Variable", the first family slot
found by `getFamilyName` reads "Inter Variable". -/
lemma getFamilyName_after_pass1_inter {f f1 : Font} (hfs : famSlotsInter f)
    (hok : setFamilyName f interVariableStr = .ok f1) :
    getFamilyName f1 = .ok interVariableStr := by
  have hprev := getFamilyNames_of_famSlotsInter hfs
  obtain ⟨hall, k0, hk0, hk0v⟩ := hfs
  have hg0 : getName f1 k0 = some interVariableStr := by
    rw [getName_setFamilyName hprev hok (famSlots_not_25 k0 hk0), hk0v,
      Option.map_some', renameRec_on_famSlot_inter k0 hk0]
  have hmem : interVariableStr ∈ collectSlots f1 famSlots :=
    List.mem_filterMap.mpr ⟨k0, hk0, hg0⟩
  unfold getFamilyName
  cases hcs : collectSlots f1 famSlots with
  | nil =>
      rw [hcs] at hmem
      exact absurd hmem (List.not_mem_nil _)
  | cons a l =>
      have ha : a ∈ collectSlots f1 famSlots := by
        rw [hcs]
        simp
      obtain ⟨k, hk, hkv⟩ := List.mem_filterMap.mp ha
      rw [getName_setFamilyName hprev hok (famSlots_not_25 k hk)] at hkv
      rcases hall k hk with hn | hsv
      · rw [hn] at hkv
        exact absurd hkv (by simp)
      · rw [hsv, Option.map_some', renameRec_on_famSlot_inter k hk] at hkv
        rw [← Option.some.inj hkv]

/-- C1, amended: after the full pipeline with no `--family` override and
previous family "Inter", every family-related record OTHER than the four
Windows/Mac full-name and PostScript-name records keeps its position and has
exactly the FIRST occurrence of "Inter" replaced by the new family name
("InterVariable" on the PostScript-bearing nameIDs 6 and 3, "Inter Variable"
elsewhere), so the new name appears in every matched such record and
unmatched ones are untouched; the four Windows/Mac full-name and
PostScript-name records are subsequently recomputed by the style stage from
the renamed family — "Inter Variable" plus the cleaned style (elided when
"Regular"), whitespace-free for the PostScript form — and therefore also
contain the new family name.  Later occurrences of the previous family name
(and the "Inter" inside "Inter Variable" itself) remain. -/
theorem C1_family_rename_first_occurrence (f : Font) (w s0 : Str)
    (hfs : famSlotsInter f) (hw : getName f winSubKey = some w)
    (hs : getStyleName f = .ok s0) :
    ∃ g st,
      runPipeline f interVariableStr = .ok (g, st) ∧
      (∀ (i : Nat) (r : NameRecord), f.names[i]? = some r →
        r.key.nameID ∈ FAMILY_RELATED_IDS →
        r.key ∉ [macFullKey, winFullKey, macPsKey, winPsKey] →
        g.names[i]? = some ⟨r.key, bakedFamilyString r⟩) ∧
      (∀ r ∈ f.names, r.key.nameID ∈ FAMILY_RELATED_IDS →
        containsSub r.string interStr = true →
        containsSub (bakedFamilyString r)
          (if r.key.nameID = 6 ∨ r.key.nameID = 3 then interVariableNoSpaceStr
            else interVariableStr) = true) ∧
      (∃ sty full,
        sty = (if remove_substring s0 displayStr = [] then regularStr
               else remove_substring s0 displayStr) ∧
        full = (if sty = regularStr then interVariableStr
                else interVariableStr ++ [' '] ++ sty) ∧
        getName g winFullKey = some full ∧
        getName g macFullKey = some full ∧
        getName g winPsKey = some (remove_whitespace full) ∧
        getName g macPsKey = some (remove_whitespace full) ∧
        containsSub full interVariableStr = true ∧
        containsSub (remove_whitespace full) interVariableNoSpaceStr = true) := by
  have hprev := getFamilyNames_of_famSlotsInter hfs
  obtain ⟨f1, hf1⟩ := setFamilyName_ok_exists hprev hw interVariableStr
  have hs1 : getStyleName f1 = .ok s0 := by
    rw [getStyleName_setFamilyName hf1]
    exact hs
  have hfam : getFamilyName f1 = .ok interVariableStr :=
    getFamilyName_after_pass1_inter hfs hf1
  obtain ⟨g, hf2⟩ : ∃ g, setStyleName f1
      (if remove_substring s0 displayStr = [] then regularStr
       else remove_substring s0 displayStr) = .ok g :=
    ⟨_, setStyleName_ok hfam _⟩
  have hw1 : getName f1 winSubKey = some w := by
    rw [getName_setFamilyName_not_fam hf1 (by decide)]
    exact hw
  have hw2 : getName g winSubKey = some
      (if remove_substring s0 displayStr = [] then regularStr
       else remove_substring s0 displayStr) := by
    rw [getName_setStyleName_style hf2 (Or.inl rfl), hw1]
    rfl
  have hst : gen_stat g = .ok (stat_axes_format_2 (containsSub
      (if remove_substring s0 displayStr = [] then regularStr
       else remove_substring s0 displayStr) italicStr)) := by
    unfold gen_stat font_is_italic
    rw [hw2]
  have hstrip : stripStr interVariableStr = interVariableStr := by decide
  refine ⟨g, _, runPipeline_eq_ok hf1 hs1 hf2 hst, ?_, ?_, ?_⟩
  · -- positional first-occurrence replacement away from the four rewritten keys
    intro i r hir hfamid hnot4
    simp only [List.mem_cons, List.not_mem_nil, or_false] at hnot4
    push_neg at hnot4
    obtain ⟨hneMF, hneWF, hneMP, hneWP⟩ := hnot4
    have hilt : i < f.names.length := (List.getElem?_eq_some.mp hir).1
    have htake := setFamilyName_names_take hprev hf1
    have e1 : psVariantsOf [interStr] = [interStr] := by decide
    have e2 : listReplace interVariableStr [' '] [] =
        interVariableNoSpaceStr := by decide
    rw [e1, e2] at htake
    have hf1i : f1.names[i]? =
        some (⟨r.key, bakedFamilyString r⟩ : NameRecord) := by
      have h1 : (f1.names.take f.names.length)[i]? = f1.names[i]? := by
        rw [List.getElem?_take, if_pos hilt]
      rw [← h1, htake, List.getElem?_map, hir, Option.map_some',
        renameRec_pass1_eq r]
    cases hfamQ : getFamilyName f1 with
    | error e =>
        rw [hfamQ] at hfam
        exact absurd hfam (by simp)
    | ok fam =>
        rw [setStyleName_ok hfamQ] at hf2
        have hg := Except.ok.inj hf2
        subst hg
        show ((set_full_name f1 _ _).names.map _)[i]? = _
        rw [List.getElem?_map]
        have hsfn : (set_full_name f1
            (if (if remove_substring s0 displayStr = [] then regularStr
                 else remove_substring s0 displayStr) = regularStr
             then stripStr fam
             else stripStr fam ++ [' '] ++
               (if remove_substring s0 displayStr = [] then regularStr
                else remove_substring s0 displayStr))
            (remove_whitespace
              (if (if remove_substring s0 displayStr = [] then regularStr
                   else remove_substring s0 displayStr) = regularStr
               then stripStr fam
               else stripStr fam ++ [' '] ++
                 (if remove_substring s0 displayStr = [] then regularStr
                  else remove_substring s0 displayStr)))).names[i]? =
            some (⟨r.key, bakedFamilyString r⟩ : NameRecord) := by
          show (setNameRecs (setNameRecs (setNameRecs (setNameRecs f1.names
            _ macFullKey) _ winFullKey) _ macPsKey) _ winPsKey)[i]? = _
          exact getElem?_setNameRecs_ne _ winPsKey _ i _
            (getElem?_setNameRecs_ne _ macPsKey _ i _
              (getElem?_setNameRecs_ne _ winFullKey _ i _
                (getElem?_setNameRecs_ne _ macFullKey _ i _ hf1i hneMF)
                hneWF)
              hneMP)
            hneWP
        rw [hsfn, Option.map_some']
        have hns : ¬ (r.key.nameID = 2 ∨ r.key.nameID = 17) :=
          fam_ids_not_style _ hfamid
        simp [hns]
  · -- matched records contain the new family name
    intro r _ hfamid hc
    obtain ⟨i, hfind⟩ : ∃ i, findSub r.string interStr = some i := by
      unfold containsSub at hc
      cases hfsu : findSub r.string interStr with
      | none =>
          rw [hfsu] at hc
          exact absurd hc (by simp)
      | some i => exact ⟨i, rfl⟩
    unfold bakedFamilyString
    rw [if_pos hfamid]
    by_cases h63 : r.key.nameID = 6 ∨ r.key.nameID = 3
    · rw [if_pos h63, if_pos h63]
      exact containsSub_replaceFirst interStr_ne_nil hfind
    · rw [if_neg h63, if_neg h63]
      exact containsSub_replaceFirst interStr_ne_nil hfind
  · -- the four full/PostScript records, recomputed from "Inter Variable"
    obtain ⟨hfull, hfull2, hps1, hps2⟩ := getName_setStyleName_full hfam hf2
    rw [hstrip] at hfull hfull2 hps1 hps2
    refine ⟨_, _, rfl, rfl, hfull, hfull2, hps1, hps2, ?_, ?_⟩
    · by_cases hreg : (if remove_substring s0 displayStr = [] then regularStr
          else remove_substring s0 displayStr) = regularStr
      · rw [if_pos hreg, show interVariableStr = interVariableStr ++ []
          from (List.append_nil _).symm]
        exact containsSub_append_self interVariableStr []
      · rw [if_neg hreg, List.append_assoc]
        exact containsSub_append_self interVariableStr _
    · by_cases hreg : (if remove_substring s0 displayStr = [] then regularStr
          else remove_substring s0 displayStr) = regularStr
      · rw [if_pos hreg]
        have hrmw : remove_whitespace interVariableStr =
            interVariableNoSpaceStr := by decide
        rw [hrmw, show interVariableNoSpaceStr = interVariableNoSpaceStr ++ []
          from (List.append_nil _).symm]
        exact containsSub_append_self interVariableNoSpaceStr []
      · rw [if_neg hreg]
        show containsSub (List.filter _ (interVariableStr ++ ([' '] ++ _)))
          interVariableNoSpaceStr = true
        rw [← List.append_assoc, List.filter_append]
        have hrmw : List.filter (fun c => !(isSpace c))
            (interVariableStr ++ [' ']) = interVariableNoSpaceStr := by decide
        rw [hrmw]
        exact containsSub_append_self interVariableNoSpaceStr _

/-- Witness for the amended C1 at a concrete font. -/
theorem C1_family_rename_first_occurrence_witness :
    famSlotsInter fontC1 ∧ getName fontC1 winSubKey = some "Regular".toList ∧
    getStyleName fontC1 = .ok "Regular".toList ∧
    (∃ g st,
      runPipeline fontC1 interVariableStr = .ok (g, st) ∧
      (∀ (i : Nat) (r : NameRecord), fontC1.names[i]? = some r →
        r.key.nameID ∈ FAMILY_RELATED_IDS →
        r.key ∉ [macFullKey, winFullKey, macPsKey, winPsKey] →
        g.names[i]? = some ⟨r.key, bakedFamilyString r⟩) ∧
      (∀ r ∈ fontC1.names, r.key.nameID ∈ FAMILY_RELATED_IDS →
        containsSub r.string interStr = true →
        containsSub (bakedFamilyString r)
          (if r.key.nameID = 6 ∨ r.key.nameID = 3 then interVariableNoSpaceStr
            else interVariableStr) = true) ∧
      (∃ sty full,
        sty = (if remove_substring "Regular".toList displayStr = []
               then regularStr
               else remove_substring "Regular".toList displayStr) ∧
        full = (if sty = regularStr then interVariableStr
                else interVariableStr ++ [' '] ++ sty) ∧
        getName g winFullKey = some full ∧
        getName g macFullKey = some full ∧
        getName g winPsKey = some (remove_whitespace full) ∧
        getName g macPsKey = some (remove_whitespace full) ∧
        containsSub full interVariableStr = true ∧
        containsSub (remove_whitespace full) interVariableNoSpaceStr = true)) :=
  ⟨by unfold famSlotsInter; decide, by decide, rfl,
    C1_family_rename_first_occurrence fontC1 "Regular".toList "Regular".toList
      (by unfold famSlotsInter; decide) (by decide) rfl⟩

/-- C4, amended: the style cleanup applied twice equals the cleanup applied
once for every string whose single-pass "Display" removal leaves no
"Display" occurrence (removal can splice a new occurrence together, e.g.
"DisDisplayplay"); and the pipeline leaves a style name unchanged when the
name is a non-empty fixed point of the cleanup (merely lacking "Display" is
not enough — surrounding or doubled whitespace is still normalized away). -/
theorem C4_style_cleanup_idempotent (s : Str) (f : Font) (ps : List Str)
    (w s0 : Str) :
    (containsSub (remove_substring s displayStr) displayStr = false →
      remove_substring (remove_substring s displayStr) displayStr =
        remove_substring s displayStr) ∧
    (getFamilyNames f = .ok ps → getName f winSubKey = some w →
      getStyleName f = .ok s0 → remove_substring s0 displayStr = s0 →
      s0 ≠ [] →
      ∃ g st, runPipeline f interVariableStr = .ok (g, st) ∧
        getStyleName g = .ok s0) := by
  constructor
  · exact fun h => remove_substring_fixed h
  · intro hprev hw hs hfix hne
    obtain ⟨f1, hf1⟩ := setFamilyName_ok_exists hprev hw interVariableStr
    have hs1 : getStyleName f1 = .ok s0 := by
      rw [getStyleName_setFamilyName hf1]
      exact hs
    obtain ⟨fam, hfam⟩ := getFamilyName_after_setFamilyName hprev hf1
    obtain ⟨g, hf2⟩ : ∃ g, setStyleName f1 s0 = .ok g :=
      ⟨_, setStyleName_ok hfam s0⟩
    have hw1 : getName f1 winSubKey = some w := by
      rw [getName_setFamilyName_not_fam hf1 (by decide)]
      exact hw
    have hw2 : getName g winSubKey = some s0 := by
      rw [getName_setStyleName_style hf2 (Or.inl rfl), hw1]
      rfl
    have hst : gen_stat g = .ok (stat_axes_format_2 (containsSub s0 italicStr)) := by
      unfold gen_stat font_is_italic
      rw [hw2]
    have hsty : (if remove_substring s0 displayStr = [] then regularStr
        else remove_substring s0 displayStr) = s0 := by
      rw [hfix, if_neg hne]
    refine ⟨g, stat_axes_format_2 (containsSub s0 italicStr), ?_,
      getStyleName_after_setStyleName hf2 hs1⟩
    refine runPipeline_eq_ok hf1 hs1 ?_ hst
    rw [hsty]
    exact hf2

/-- Witness for the amended C4 at a concrete string and font. -/
theorem C4_style_cleanup_idempotent_witness :
    (containsSub (remove_substring "Thin Display".toList displayStr)
        displayStr = false ∧
      remove_substring (remove_substring "Thin Display".toList displayStr)
        displayStr = remove_substring "Thin Display".toList displayStr) ∧
    (getFamilyNames fontW4 = .ok ["Inter".toList] ∧
      getName fontW4 winSubKey = some "Bold".toList ∧
      getStyleName fontW4 = .ok "Bold".toList ∧
      remove_substring "Bold".toList displayStr = "Bold".toList ∧
      ∃ g st, runPipeline fontW4 interVariableStr = .ok (g, st) ∧
        getStyleName g = .ok "Bold".toList) := by
  refine ⟨⟨by decide, ?_⟩, rfl, by decide, rfl, by decide, ?_⟩
  · exact (C4_style_cleanup_idempotent "Thin Display".toList fontW4
      ["Inter".toList] "Bold".toList "Bold".toList).1 (by decide)
  · exact (C4_style_cleanup_idempotent "Thin Display".toList fontW4
      ["Inter".toList] "Bold".toList "Bold".toList).2 rfl (by decide) rfl
      (by decide) (by decide)

/-- C4 counterexample: (a) cleanup is not idempotent — removing "Display"
from "DisDisplayplay" splices a fresh "Display" together, which a second
pass removes; (b) the pipeline does not leave every Display-free style name
unchanged — the style " Bold " (no "Display" anywhere) is rewritten to
"Bold" by the strip/whitespace normalization. -/
theorem C4_counterexample :
    remove_substring (remove_substring "DisDisplayplay".toList displayStr)
        displayStr ≠
      remove_substring "DisDisplayplay".toList displayStr ∧
    containsSub " Bold ".toList displayStr = false ∧
    getName fontC4 winSubKey = some " Bold ".toList ∧
    (runPipeline fontC4 interVariableStr).isOk = true ∧
    getName (bake fontC4 interVariableStr) winSubKey = some "Bold".toList ∧
    some "Bold".toList ≠ some " Bold ".toList := by decide

/-- C7: during family renaming, when no nameID 25 record exists and the new
family name contains "Variable", exactly one prefix string — the
whitespace-stripped new family name, with "Italic" appended when the current
Windows subfamily contains "Italic" — is written for both Mac-Roman and
Windows-English (two new records, nothing else added); otherwise no record
is synthesized: the table keeps its length and its keys. -/
theorem C7_var_ps_prefix_synthesis (f : Font) (ps : List Str) (next w : Str)
    (hprev : getFamilyNames f = .ok ps) (hw : getName f winSubKey = some w) :
    ∃ g, setFamilyName f next = .ok g ∧
      ((hasID25 f = false ∧ containsSub next variableStr = true) →
        getName g macID25Key = some (remove_whitespace next ++
          (if containsSub w italicStr then italicStr else [])) ∧
        getName g winID25Key = some (remove_whitespace next ++
          (if containsSub w italicStr then italicStr else [])) ∧
        g.names.length = f.names.length + 2) ∧
      (¬ (hasID25 f = false ∧ containsSub next variableStr = true) →
        g.names.length = f.names.length ∧
        g.names.map (fun r => r.key) = f.names.map (fun r => r.key)) := by
  by_cases hcond : hasID25 f = false ∧ containsSub next variableStr = true
  · refine ⟨_, setFamilyName_eq_synth hprev next hcond.1 hcond.2 hw, ?_, ?_⟩
    · intro _
      have hno25 := no_id25_of_hasID25_false hcond.1
      have habs1 : ∀ r ∈ f.names.map (renameRec ps (psVariantsOf ps) next
          (listReplace next [' '] [])), ¬ r.key = macID25Key := by
        intro r hr hc
        obtain ⟨r0, hr0, rfl⟩ := List.mem_map.mp hr
        rw [renameRec_key] at hc
        exact hno25 r0 hr0 (by rw [hc]; rfl)
      refine ⟨?_, ?_, ?_⟩
      · show lookupRec (setNameRecs (setNameRecs _ _ macID25Key) _ winID25Key)
          macID25Key = _
        rw [lookupRec_setNameRecs_other _ _ (by decide)]
        exact lookupRec_setNameRecs_self _ _ _
      · exact lookupRec_setNameRecs_self _ _ _
      · show (setNameRecs (setNameRecs (f.names.map _) _ macID25Key) _
          winID25Key).length = _
        rw [setNameRecs_of_absent habs1]
        have habs2 : ∀ r ∈ f.names.map (renameRec ps (psVariantsOf ps) next
            (listReplace next [' '] [])) ++
            [⟨macID25Key, remove_whitespace next ++
              (if containsSub w italicStr then italicStr else [])⟩],
            ¬ r.key = winID25Key := by
          intro r hr hc
          rcases List.mem_append.mp hr with hr | hr
          · obtain ⟨r0, hr0, rfl⟩ := List.mem_map.mp hr
            rw [renameRec_key] at hc
            exact hno25 r0 hr0 (by rw [hc]; rfl)
          · have hre : r = ⟨macID25Key, remove_whitespace next ++
                (if containsSub w italicStr then italicStr else [])⟩ := by
              simpa using hr
            rw [hre] at hc
            have hkk : macID25Key = winID25Key := hc
            exact absurd hkk (by decide)
        rw [setNameRecs_of_absent habs2]
        simp
    · intro hcon
      exact absurd hcond hcon
  · refine ⟨_, setFamilyName_eq_no_synth hprev next hcond, ?_, ?_⟩
    · intro hcon
      exact absurd hcon hcond
    · intro _
      constructor
      · simp
      · rw [List.map_map]
        refine List.map_congr_left ?_
        intro r _
        exact renameRec_key ps (psVariantsOf ps) next (listReplace next [' '] []) r

/-- Witness for C7: an italic font without a nameID 25 record gets
"InterVariableItalic" written on both platforms. -/
theorem C7_var_ps_prefix_synthesis_witness :
    getFamilyNames fontW7 = .ok ["Inter".toList] ∧
    getName fontW7 winSubKey = some "Bold Italic".toList ∧
    (∃ g, setFamilyName fontW7 interVariableStr = .ok g ∧
      ((hasID25 fontW7 = false ∧
          containsSub interVariableStr variableStr = true) →
        getName g macID25Key = some (remove_whitespace interVariableStr ++
          (if containsSub "Bold Italic".toList italicStr then italicStr
           else [])) ∧
        getName g winID25Key = some (remove_whitespace interVariableStr ++
          (if containsSub "Bold Italic".toList italicStr then italicStr
           else [])) ∧
        g.names.length = fontW7.names.length + 2) ∧
      (¬ (hasID25 fontW7 = false ∧
          containsSub interVariableStr variableStr = true) →
        g.names.length = fontW7.names.length ∧
        g.names.map (fun r => r.key) = fontW7.names.map (fun r => r.key))) :=
  ⟨rfl, rfl,
    C7_var_ps_prefix_synthesis fontW7 ["Inter".toList] interVariableStr
      "Bold Italic".toList rfl rfl⟩

/-- C8: when the style name cleans to the empty string, the written style is
exactly "Regular", the full-name records carry the trimmed family name alone
(no " Regular" suffix), and the PostScript-name records carry that full name
with all whitespace removed. -/
theorem C8_empty_style_regular (f : Font) (ps : List Str) (w s0 : Str)
    (hprev : getFamilyNames f = .ok ps) (hw : getName f winSubKey = some w)
    (hs : getStyleName f = .ok s0)
    (hempty : remove_substring s0 displayStr = []) :
    ∃ f1 fam g st, setFamilyName f interVariableStr = .ok f1 ∧
      getFamilyName f1 = .ok fam ∧
      runPipeline f interVariableStr = .ok (g, st) ∧
      getName g winFullKey = some (stripStr fam) ∧
      getName g macFullKey = some (stripStr fam) ∧
      getName g winPsKey = some (remove_whitespace (stripStr fam)) ∧
      getName g macPsKey = some (remove_whitespace (stripStr fam)) ∧
      (∀ r ∈ g.names, (r.key.nameID = 2 ∨ r.key.nameID = 17) →
        r.string = regularStr) ∧
      getStyleName g = .ok regularStr := by
  obtain ⟨f1, hf1⟩ := setFamilyName_ok_exists hprev hw interVariableStr
  have hs1 : getStyleName f1 = .ok s0 := by
    rw [getStyleName_setFamilyName hf1]
    exact hs
  obtain ⟨fam, hfam⟩ := getFamilyName_after_setFamilyName hprev hf1
  obtain ⟨g, hf2⟩ : ∃ g, setStyleName f1 regularStr = .ok g :=
    ⟨_, setStyleName_ok hfam regularStr⟩
  have hw1 : getName f1 winSubKey = some w := by
    rw [getName_setFamilyName_not_fam hf1 (by decide)]
    exact hw
  have hw2 : getName g winSubKey = some regularStr := by
    rw [getName_setStyleName_style hf2 (Or.inl rfl), hw1]
    rfl
  have hst : gen_stat g =
      .ok (stat_axes_format_2 (containsSub regularStr italicStr)) := by
    unfold gen_stat font_is_italic
    rw [hw2]
  obtain ⟨hfull, hfull2, hps1, hps2⟩ := getName_setStyleName_full hfam hf2
  rw [if_pos rfl] at hfull hfull2 hps1 hps2
  refine ⟨f1, fam, g, stat_axes_format_2 (containsSub regularStr italicStr),
    hf1, hfam, ?_, hfull, hfull2, hps1, hps2,
    setStyleName_style_records hf2,
    getStyleName_after_setStyleName hf2 hs1⟩
  refine runPipeline_eq_ok hf1 hs1 ?_ hst
  rw [hempty, if_pos rfl]
  exact hf2

/-- Witness for C8: a font whose subfamily is exactly "Display". -/
theorem C8_empty_style_regular_witness :
    getFamilyNames fontW8 = .ok ["Inter".toList] ∧
    getName fontW8 winSubKey = some "Display".toList ∧
    getStyleName fontW8 = .ok "Display".toList ∧
    remove_substring "Display".toList displayStr = [] ∧
    (∃ f1 fam g st, setFamilyName fontW8 interVariableStr = .ok f1 ∧
      getFamilyName f1 = .ok fam ∧
      runPipeline fontW8 interVariableStr = .ok (g, st) ∧
      getName g winFullKey = some (stripStr fam) ∧
      getName g macFullKey = some (stripStr fam) ∧
      getName g winPsKey = some (remove_whitespace (stripStr fam)) ∧
      getName g macPsKey = some (remove_whitespace (stripStr fam)) ∧
      (∀ r ∈ g.names, (r.key.nameID = 2 ∨ r.key.nameID = 17) →
        r.string = regularStr) ∧
      getStyleName g = .ok regularStr) :=
  ⟨rfl, rfl, rfl, by decide,
    C8_empty_style_regular fontW8 ["Inter".toList] "Display".toList
      "Display".toList rfl rfl rfl (by decide)⟩

/-- C10: italic detection reads only the (2, 3, 1, 0x409) record, with no
fallback: without it, `font_is_italic` and the STAT build raise the
`AttributeError` — not the documented `NotFound` — and so does the whole
pipeline, both when the nameID 25 synthesis needs the italic check and when
the failure only surfaces in the STAT stage, even when style records exist
on other platforms. -/
theorem C10_italic_detection_no_fallback (f : Font) (ps : List Str) (s0 : Str)
    (hw : getName f winSubKey = none) :
    font_is_italic f = .error .attrError ∧
    gen_stat f = .error .attrError ∧
    (getFamilyNames f = .ok ps → hasID25 f = false →
      setFamilyName f interVariableStr = .error .attrError) ∧
    (getFamilyNames f = .ok ps → getStyleName f = .ok s0 →
      runPipeline f interVariableStr = .error .attrError) ∧
    Err.attrError ≠ Err.notFound := by
  have h1 : font_is_italic f = .error .attrError := by
    unfold font_is_italic
    rw [hw]
  refine ⟨h1, ?_, ?_, ?_, by decide⟩
  · unfold gen_stat
    rw [h1]
  · intro hprev h25
    exact setFamilyName_eq_attr hprev _ h25 (by decide) hw
  · intro hprev hs
    by_cases h25 : hasID25 f
    · have hcond : ¬ (hasID25 f = false ∧
          containsSub interVariableStr variableStr = true) := by
        intro hc
        rw [h25] at hc
        exact absurd hc.1 (by simp)
      have hf1 := setFamilyName_eq_no_synth hprev interVariableStr hcond
      have hs1 : getStyleName ⟨f.names.map (renameRec ps (psVariantsOf ps)
          interVariableStr (listReplace interVariableStr [' '] []))⟩ =
          .ok s0 := by
        rw [getStyleName_setFamilyName hf1]
        exact hs
      obtain ⟨fam, hfam⟩ := getFamilyName_after_setFamilyName hprev hf1
      obtain ⟨g, hf2⟩ : ∃ g, setStyleName ⟨f.names.map (renameRec ps
          (psVariantsOf ps) interVariableStr
          (listReplace interVariableStr [' '] []))⟩
          (if remove_substring s0 displayStr = [] then regularStr
           else remove_substring s0 displayStr) = .ok g :=
        ⟨_, setStyleName_ok hfam _⟩
      have hw1 : getName ⟨f.names.map (renameRec ps (psVariantsOf ps)
          interVariableStr (listReplace interVariableStr [' '] []))⟩
          winSubKey = none := by
        rw [getName_setFamilyName_not_fam hf1 (by decide)]
        exact hw
      have hw2 : getName g winSubKey = none := by
        rw [getName_setStyleName_style hf2 (Or.inl rfl), hw1]
        rfl
      have hst : gen_stat g = .error .attrError := by
        unfold gen_stat font_is_italic
        rw [hw2]
      exact runPipeline_err_stat hf1 hs1 hf2 hst
    · have h25f : hasID25 f = false := by
        cases h : hasID25 f
        · rfl
        · exact absurd h h25
      exact runPipeline_err_family
        (setFamilyName_eq_attr hprev _ h25f (by decide) hw)

/-- Witness for C10: style records only on Mac-Roman. -/
theorem C10_italic_detection_no_fallback_witness :
    getName fontW10 winSubKey = none ∧
    getFamilyNames fontW10 = .ok ["Inter".toList] ∧
    getStyleName fontW10 = .ok "Bold".toList ∧
    (font_is_italic fontW10 = .error .attrError ∧
     gen_stat fontW10 = .error .attrError ∧
     runPipeline fontW10 interVariableStr = .error .attrError) := by
  have h := C10_italic_detection_no_fallback fontW10 ["Inter".toList]
    "Bold".toList rfl
  exact ⟨rfl, rfl, rfl, h.1, h.2.1, h.2.2.2.1 rfl rfl⟩

lemma collectSlots_eq_nil {f : Font} {ks : List NameKey}
    (h : ∀ k ∈ ks, getName f k = none) : collectSlots f ks = [] := by
  unfold collectSlots
  induction ks with
  | nil => rfl
  | cons k ks' ih =>
      rw [List.filterMap_cons, h k (by simp)]
      exact ih (fun k' hk' => h k' (by simp [hk']))

lemma getFamilyNames_none {f : Font} (h : ∀ k ∈ famSlots, getName f k = none) :
    getFamilyNames f = .error .notFound := by
  unfold getFamilyNames
  rw [collectSlots_eq_nil h]
  rfl

lemma getStyleName_none {f : Font} (h : ∀ k ∈ styleSlots, getName f k = none) :
    getStyleName f = .error .notFound := by
  unfold getStyleName
  rw [collectSlots_eq_nil h]

/-- C6, amended: a font with no family record fails with `NotFound` before
any mutation and nothing is written to the output path.  A font with family
records but no subfamily/typographic-subfamily record on either platform
also fails before saving — with `NotFound` when a nameID 25 record exists
(the family rename then completes, mutating the in-memory table first), but
with the italic check's `AttributeError` when the nameID 25 prefix has to be
synthesized.  In every failure case the output path keeps the input font. -/
theorem C6_missing_names_abort (f : Font) (ps : List Str) :
    ((∀ k ∈ famSlots, getName f k = none) →
      setFamilyName f interVariableStr = .error .notFound ∧
      runPipeline f interVariableStr = .error .notFound ∧
      bake f interVariableStr = f) ∧
    (getFamilyNames f = .ok ps → (∀ k ∈ styleSlots, getName f k = none) →
      (hasID25 f = true → runPipeline f interVariableStr = .error .notFound) ∧
      (hasID25 f = false → runPipeline f interVariableStr = .error .attrError) ∧
      bake f interVariableStr = f) := by
  constructor
  · intro hnone
    have hfe := getFamilyNames_error_setFamilyName (getFamilyNames_none hnone)
      interVariableStr
    have hpe := runPipeline_err_family hfe
    refine ⟨hfe, hpe, ?_⟩
    unfold bake
    rw [hpe]
  · intro hprev hstyle
    have hw : getName f winSubKey = none := hstyle winSubKey (by decide)
    have h25true : hasID25 f = true →
        runPipeline f interVariableStr = .error .notFound := by
      intro h25
      have hcond : ¬ (hasID25 f = false ∧
          containsSub interVariableStr variableStr = true) := by
        intro hc
        rw [h25] at hc
        exact absurd hc.1 (by simp)
      have hf1 := setFamilyName_eq_no_synth hprev interVariableStr hcond
      have hs1 : getStyleName ⟨f.names.map (renameRec ps (psVariantsOf ps)
          interVariableStr (listReplace interVariableStr [' '] []))⟩ =
          .error .notFound := by
        rw [getStyleName_setFamilyName hf1]
        exact getStyleName_none hstyle
      exact runPipeline_err_style hf1 hs1
    have h25false : hasID25 f = false →
        runPipeline f interVariableStr = .error .attrError := by
      intro h25
      exact runPipeline_err_family
        (setFamilyName_eq_attr hprev _ h25 (by decide) hw)
    refine ⟨h25true, h25false, ?_⟩
    unfold bake
    cases h25 : hasID25 f
    · rw [h25false h25]
    · rw [h25true h25]

/-- Witness for the amended C6: the empty font (no family) and a font with
family and nameID 25 records but no style records. -/
theorem C6_missing_names_abort_witness :
    (setFamilyName (⟨[]⟩ : Font) interVariableStr = .error .notFound ∧
     runPipeline (⟨[]⟩ : Font) interVariableStr = .error .notFound ∧
     bake (⟨[]⟩ : Font) interVariableStr = ⟨[]⟩) ∧
    ((hasID25 fontC6b = true →
        runPipeline fontC6b interVariableStr = .error .notFound) ∧
     (hasID25 fontC6b = false →
        runPipeline fontC6b interVariableStr = .error .attrError) ∧
     bake fontC6b interVariableStr = fontC6b) :=
  ⟨(C6_missing_names_abort (⟨[]⟩ : Font) []).1 (by decide),
    (C6_missing_names_abort fontC6b ["Inter".toList]).2 rfl (by decide)⟩

/-- C6 counterexample: with family records present but no style records, the
pipeline does not behave as claimed — (a) without a nameID 25 record it
fails with the `AttributeError` of the italic check, not `NotFound`; (b)
with a nameID 25 record it does fail with `NotFound`, but only after the
family rename has already mutated the in-memory name table (both records
were rewritten to "Inter Variable" before the failure). -/
theorem C6_counterexample :
    runPipeline fontC6a interVariableStr = .error .attrError ∧
    Err.attrError ≠ Err.notFound ∧
    setFamilyName fontC6b interVariableStr = .ok fontC6bRenamed ∧
    fontC6bRenamed ≠ fontC6b ∧
    runPipeline fontC6b interVariableStr = .error .notFound :=
  ⟨rfl, by decide, rfl, by decide, rfl⟩
